import Mathlib

/-!
# QPalmDB: reading Palm OS database (PDB) files

A shallow embedding of `src/qpalmdb.cpp` and `src/qpalmdbrecord.cpp`, and theorems
about the header decoder, the entry-table decoder, record lookup and the record
cursor.

Modelling conventions.

* A byte is a `UInt8`; every C++ integer is a `Nat` or an `Int`, and each place where
  the C++ type truncates is written out (`toQuint32`, `% 2 ^ 64`).
* `QFile` is the Qt byte source: its content, its seek position and whether it is open
  for reading.  `read` returns at most the requested number of bytes and advances the
  position by the number of bytes returned; `seek` sets the position.
* The code hands the `QByteArray` returned by `QFile::read` to `qFromBigEndian<T>`, which
  reads `sizeof(T)` bytes through the array's data pointer without looking at its size.
  A `QByteArray` is always followed by one NUL byte; the memory after that NUL is not
  specified by C++.  Bytes past the end of a short array are read as `0` here: exact for
  the first one, a convention for the others.
* `QString::fromLatin1 (const QByteArray &)` has its Qt 5 behaviour: the text stops at the
  first NUL byte of the array.
* A `QDateTime` is `none` when default constructed and `some s` for the instant `s`
  seconds after 1970-01-01T00:00:00Z.
* A field of a C++ struct that has not been assigned yet is `0`.
* `QList::operator[]` with an index outside the list, and a call through a null `file`
  pointer, are faults (`Except.error`).
-/

namespace QPalmDB

set_option autoImplicit false

/-! ## Qt collaborators -/

/-- A Qt byte array: the list of its bytes. -/
abbrev QByteArray := List UInt8

/-- A Qt string: the list of its characters. -/
abbrev QString := List Char

/-- A Qt date-time: `none` is the null date-time, `some s` is `s` seconds after the Unix
epoch. -/
abbrev QDateTime := Option Int

/-- The instant `secs` seconds after 1970-01-01T00:00:00Z: `QDateTime::fromSecsSinceEpoch`. -/
def fromSecsSinceEpoch (secs : Int) : QDateTime := some secs

/-- The byte source: content, seek position, and whether it is open for reading. -/
structure QFile where
  bytes : List UInt8
  pos : Nat
  readable : Bool
deriving DecidableEq

/-- A source just opened for reading: position 0. -/
def QFile.opened (src : List UInt8) : QFile :=
  { bytes := src, pos := 0, readable := true }

/-- Reading `QIODevice::read (maxSize)`: at most `maxSize` bytes from the current position,
fewer at the end of the source; the position advances by the number of bytes returned. -/
def QFile.read (f : QFile) (maxSize : Nat) : QByteArray × QFile :=
  let r := (f.bytes.drop f.pos).take maxSize
  (r, { f with pos := f.pos + r.length })

/-- Seeking `QFile::seek (pos)`: sets the position. -/
def QFile.seek (f : QFile) (p : Nat) : QFile := { f with pos := p }

/-- Total length `QFile::size ()` of the source. -/
def QFile.size (f : QFile) : Nat := f.bytes.length

/-- Big-endian decoding `qFromBigEndian<T> (const void *src)` with `w = sizeof (T)`: the
value of the `w` bytes at `src`, most significant first.  A byte past the end of the
array reads as `0`. -/
def qFromBigEndian : Nat → QByteArray → Nat
  | 0, _ => 0
  | w + 1, src => (src.headD 0).toNat * 256 ^ w + qFromBigEndian w src.tail

/-- Latin-1 decoding of one byte: the character with the same code point. -/
def latin1 (b : UInt8) : Char := Char.ofNat b.toNat

/-- Latin-1 decoding `QString::fromLatin1 (const QByteArray &)` (Qt 5): the bytes before
the first NUL of the array, one character each. -/
def fromLatin1 (ba : QByteArray) : QString :=
  (ba.takeWhile (fun b => b != 0)).map latin1

/-- Conversion of a 64-bit signed value to `quint32`: reduction modulo `2 ^ 32`. -/
def toQuint32 (x : Int) : Nat := (x % 2 ^ 32).toNat

/-- Conversion of a `quint64` bit pattern to `qint64`. -/
def toQint64 (x : Nat) : Int :=
  if x % 2 ^ 64 < 2 ^ 63 then ((x % 2 ^ 64 : Nat) : Int) else ((x % 2 ^ 64 : Nat) : Int) - 2 ^ 64

/-- Flag test `QFlags::testFlag (flag)` on the integer value of the flag set. -/
def testFlag (flags flag : Nat) : Bool :=
  (flags &&& flag) == flag && (flag != 0 || flags == flag)

/-! ## Data of `QPalmDBPrivate` -/

/-- Header flag `HeaderFlag::Resource`. -/
def HeaderFlag.Resource : Nat := 0x0001

/-- Size `kMaxPDBNameSize` of the name field. -/
def kMaxPDBNameSize : Nat := 32

/-- The decoded header `QPalmDBPrivate::Header`. -/
structure Header where
  name : QString
  flags : Nat
  version : Nat
  creationTime : QDateTime
  modificationTime : QDateTime
  backupTime : QDateTime
  modificationNumber : Nat
  appInfoOffset : Nat
  sortInfoOffset : Nat
  type : Nat
  creator : Nat
  uniqueID : Nat
  nextRecordID : Nat
  numRecords : Nat
deriving DecidableEq

/-- A resource descriptor `PDBResourceEntry`. -/
structure PDBResourceEntry where
  type : Nat
  id : Nat
  offset : Nat
  length : Nat
deriving DecidableEq

/-- A record descriptor `PDBRecordEntry`. -/
structure PDBRecordEntry where
  offset : Nat
  attr : Nat
  uniqueID : Nat
  length : Nat
deriving DecidableEq

/-- The state `QPalmDBPrivate` of a database object. -/
structure QPalmDBPrivate where
  resourcesEntries : List PDBResourceEntry
  recordsEntries : List PDBRecordEntry
  file : Option QFile
  ownsFilePtr : Bool
  header : Header
deriving DecidableEq

/-- A record cursor `QPalmDBRecordPrivate`: the bytes and the cursor position. -/
structure QPalmDBRecord where
  data : QByteArray
  offset : Int
deriving DecidableEq

/-- Constructor `QPalmDBRecord (const QByteArray &)`: the cursor starts at 0. -/
def QPalmDBRecord.ofData (data : QByteArray) : QPalmDBRecord :=
  { data := data, offset := 0 }

/-- Emptiness test `QPalmDBRecord::isEmpty`. -/
def QPalmDBRecord.isEmpty (r : QPalmDBRecord) : Bool := r.data.isEmpty

/-- What goes wrong when the code leaves defined behaviour. -/
inductive Fault where
  | indexOutOfRange
  | nullFile
deriving DecidableEq

/-- The state built by the default constructor `QPalmDBPrivate ()`. -/
def QPalmDBPrivate.init : QPalmDBPrivate :=
  { resourcesEntries := []
    recordsEntries := []
    file := none
    ownsFilePtr := false
    header :=
      { name := [], flags := 0, version := 0, creationTime := none, modificationTime := none,
        backupTime := none, modificationNumber := 0, appInfoOffset := 0, sortInfoOffset := 0,
        type := 0, creator := 0, uniqueID := 0, nextRecordID := 0, numRecords := 0 } }

/-! ## `QPalmDBPrivate` operations -/

/-- Palm-epoch conversion `qDateTimeFromPalmEpochBigEndian`: the big-endian `quint32` at
`src`, widened to `quint64`, plus `2082844886`, as seconds since the Unix epoch. -/
def qDateTimeFromPalmEpochBigEndian (src : QByteArray) : QDateTime :=
  let l_palmEpoch := qFromBigEndian 4 src
  let l_palmEpoch := (l_palmEpoch + 2082844886) % 2 ^ 64
  fromSecsSinceEpoch (toQint64 l_palmEpoch)

/-- One iteration, number `i`, of the loop of `loadRecordsEntries`, on the file and the
list `recordsEntries`. -/
def loadRecordsEntriesBody (i : Nat) (st : QFile × List PDBRecordEntry) :
    QFile × List PDBRecordEntry :=
  let r1 := st.1.read 4
  let offset := qFromBigEndian 4 r1.1
  let r2 := r1.2.read 4
  let l := qFromBigEndian 2 r2.1
  let re : PDBRecordEntry :=
    { offset := offset, attr := (l >>> 24) &&& 0xFF, uniqueID := l &&& 0xFFFFFF, length := 0 }
  let es :=
    if 0 < i then
      st.2.modify (fun pre => { pre with length := toQuint32 ((re.offset : Int) - pre.offset) })
        (i - 1)
    else st.2
  (r2.2, es ++ [re])

/-- The first `k` iterations `i = 0, …, k - 1` of the loop of `loadRecordsEntries`. -/
def loadRecordsEntriesLoop : Nat → QFile × List PDBRecordEntry → QFile × List PDBRecordEntry
  | 0, st => st
  | k + 1, st => loadRecordsEntriesBody k (loadRecordsEntriesLoop k st)

/-- Record path `loadRecordsEntries`, with `f` the file that `d.file` points to. -/
def loadRecordsEntries (d : QPalmDBPrivate) (f : QFile) : Bool × QPalmDBPrivate :=
  let st := loadRecordsEntriesLoop d.header.numRecords (f, d.recordsEntries)
  let es :=
    if 0 < d.header.numRecords then
      st.2.modify (fun pre => { pre with length := toQuint32 ((st.1.size : Int) - pre.offset) })
        (d.header.numRecords - 1)
    else st.2
  (true, { d with recordsEntries := es, file := some st.1 })

/-- One iteration, number `i`, of the loop of `loadResourcesEntries`. -/
def loadResourcesEntriesBody (i : Nat) (rs : List PDBResourceEntry) : List PDBResourceEntry :=
  let re : PDBResourceEntry := { type := 1, id := 1, offset := 1, length := 0 }
  let rs :=
    if 0 < i then
      rs.modify (fun pre => { pre with length := toQuint32 ((re.offset : Int) - pre.offset) })
        (i - 1)
    else rs
  rs ++ [re]

/-- The first `k` iterations of the loop of `loadResourcesEntries`. -/
def loadResourcesEntriesLoop : Nat → List PDBResourceEntry → List PDBResourceEntry
  | 0, rs => rs
  | k + 1, rs => loadResourcesEntriesBody k (loadResourcesEntriesLoop k rs)

/-- Resource path `loadResourcesEntries`, with `f` the file that `d.file` points to. -/
def loadResourcesEntries (d : QPalmDBPrivate) (f : QFile) : Bool × QPalmDBPrivate :=
  let rs := loadResourcesEntriesLoop d.header.numRecords d.resourcesEntries
  let rs :=
    if 0 < d.header.numRecords then
      rs.modify (fun pre => { pre with length := toQuint32 ((f.size : Int) - pre.offset) })
        (d.header.numRecords - 1)
    else rs
  (true, { d with resourcesEntries := rs })

/-- The fourteen header reads of `load ()`, in order, from the file `f0`: the decoded header
and the file after them. -/
def readHeader (f0 : QFile) : Header × QFile :=
  let r1 := f0.read kMaxPDBNameSize
  let r2 := r1.2.read 2
  let r3 := r2.2.read 2
  let r4 := r3.2.read 4
  let r5 := r4.2.read 4
  let r6 := r5.2.read 4
  let r7 := r6.2.read 4
  let r8 := r7.2.read 4
  let r9 := r8.2.read 4
  let r10 := r9.2.read 4
  let r11 := r10.2.read 4
  let r12 := r11.2.read 4
  let r13 := r12.2.read 4
  let r14 := r13.2.read 2
  ({ name := fromLatin1 r1.1
     flags := qFromBigEndian 2 r2.1
     version := qFromBigEndian 2 r3.1
     creationTime := qDateTimeFromPalmEpochBigEndian r4.1
     modificationTime := qDateTimeFromPalmEpochBigEndian r5.1
     backupTime := qDateTimeFromPalmEpochBigEndian r6.1
     modificationNumber := qFromBigEndian 4 r7.1
     appInfoOffset := qFromBigEndian 4 r8.1
     sortInfoOffset := qFromBigEndian 4 r9.1
     type := qFromBigEndian 4 r10.1
     creator := qFromBigEndian 4 r11.1
     uniqueID := qFromBigEndian 4 r12.1
     nextRecordID := qFromBigEndian 4 r13.1
     numRecords := qFromBigEndian 2 r14.1 }, r14.2)

/-- The loader `QPalmDBPrivate::load ()`: the returned flag and the state afterwards. -/
def load (d : QPalmDBPrivate) : Bool × QPalmDBPrivate :=
  match d.file with
  | none => (false, d)
  | some f =>
    if !f.readable then (false, d)
    else
      let hf := readHeader f
      let d1 := { d with header := hf.1, file := some hf.2 }
      if testFlag hf.1.flags HeaderFlag.Resource then loadResourcesEntries d1 hf.2
      else loadRecordsEntries d1 hf.2

/-- Constructor `QPalmDBPrivate (QFile *a_file)`: stores the file and loads; the load's
flag is kept beside the state. -/
def QPalmDBPrivate.ofFile (a_file : QFile) : Bool × QPalmDBPrivate :=
  load { QPalmDBPrivate.init with file := some a_file, ownsFilePtr := false }

/-! ## `QPalmDB` operations -/

/-- Accessor `QPalmDB::name`. -/
def name (d : QPalmDBPrivate) : QString := d.header.name

/-- Accessor `QPalmDB::numRecords`. -/
def numRecords (d : QPalmDBPrivate) : Int := (d.header.numRecords : Int)

/-- Record lookup `QPalmDB::record (a_idx)`: the record and the state afterwards (the
file's position moves), or a fault. -/
def record (d : QPalmDBPrivate) (a_idx : Int) : Except Fault (QPalmDBRecord × QPalmDBPrivate) :=
  if (d.recordsEntries.length : Int) ≤ a_idx then
    .ok (QPalmDBRecord.ofData [], d)
  else
    if a_idx < 0 then .error Fault.indexOutOfRange
    else
      match d.recordsEntries[a_idx.toNat]? with
      | none => .error Fault.indexOutOfRange
      | some l_re =>
        match d.file with
        | none => .error Fault.nullFile
        | some f =>
          let f1 := f.seek l_re.offset
          let r := f1.read l_re.length
          .ok (QPalmDBRecord.ofData r.1, { d with file := some r.2 })

/-! ## `QPalmDBRecord` operations

The cursor is a `qint32`; it is an unbounded `Int` here, since signed overflow has no defined
result in C++: the definitions agree with the code as long as the cursor stays below
`2 ^ 31`, and the theorems keep it there, by a bound on the buffer length where the
hypotheses do not already keep the cursor inside the buffer.
The record functions read through the pointer `data.constData () + offset`
and never look at the size of the array.  The memory seen through that pointer is the rest
of the array followed by its NUL terminator; as for `qFromBigEndian`, a byte outside the
array reads as 0, which is exact for the terminator and a convention elsewhere. -/

/-- The pointer `currentCursor ()`, as the bytes from the cursor to the end of the array
(with a cursor before the array: the bytes up to the array, read as 0, then the array). -/
def QPalmDBRecord.currentCursor (r : QPalmDBRecord) : QByteArray :=
  if 0 ≤ r.offset then r.data.drop r.offset.toNat
  else List.replicate (-r.offset).toNat 0 ++ r.data

/-- Cursor move `skip (a_size)`. -/
def QPalmDBRecord.skip (r : QPalmDBRecord) (a_size : Int) : QPalmDBRecord :=
  { r with offset := r.offset + a_size }

/-- Cursor read `src (a_size)`: the pointer before the move, and the cursor moved by
`a_size`. -/
def QPalmDBRecord.src (r : QPalmDBRecord) (a_size : Int) : QByteArray × QPalmDBRecord :=
  (r.currentCursor, { r with offset := r.offset + a_size })

/-- Raw read `QPalmDBRecord::rawField (a_size)`. -/
def QPalmDBRecord.rawField (r : QPalmDBRecord) (a_size : Int) : QByteArray × QPalmDBRecord :=
  r.src a_size

/-- Cursor reset `QPalmDBRecord::rewind`. -/
def QPalmDBRecord.rewind (r : QPalmDBRecord) : QPalmDBRecord :=
  { r with offset := 0 }

/-- Byte array construction `QByteArray (const char *data, int size)`: a copy of the first
`size` bytes at `data`; with a negative `size`, of the bytes before the first NUL. -/
def byteArrayFromPtr (p : QByteArray) (size : Int) : QByteArray :=
  if size < 0 then p.takeWhile (fun b => b != 0)
  else (List.range size.toNat).map (fun k => p.getD k 0)

/-- Latin-1 decoding `QString::fromLatin1 (const char *)`: the bytes before the first NUL at
the pointer, one character each. -/
def fromLatin1Ptr (p : QByteArray) : QString :=
  (p.takeWhile (fun b => b != 0)).map latin1

/-- Field read `QPalmDBRecord::byteArrayField (a_size)`: the value and the cursor after. -/
def QPalmDBRecord.byteArrayField (r : QPalmDBRecord) (a_size : Int) :
    QByteArray × QPalmDBRecord :=
  let s := r.src a_size
  (byteArrayFromPtr s.1 a_size, s.2)

/-- Field read `QPalmDBRecord::stringField`: the value and the cursor after. -/
def QPalmDBRecord.stringField (r : QPalmDBRecord) : QString × QPalmDBRecord :=
  let ret := fromLatin1Ptr r.currentCursor
  (ret, r.skip ((ret.length : Int) + 1))

/-- Field read `QPalmDBRecord::integerField<T>` for an unsigned `T` of `w = sizeof (T)`
bytes: the value and the cursor after. -/
def QPalmDBRecord.integerField (w : Nat) (r : QPalmDBRecord) : Nat × QPalmDBRecord :=
  let s := r.rawField (w : Int)
  (qFromBigEndian w s.1, s.2)

/-! ## Sequences of cursor calls -/

/-- One call on a record cursor: `integerField<T>` with `sizeof (T) = w`, `byteArrayField`
with a size `≥ 0`, `stringField`, or `rewind`. -/
inductive FieldCall where
  | integerField (w : Nat)
  | byteArrayField (size : Nat)
  | stringField
  | rewind
deriving DecidableEq

/-- What a cursor call returns. -/
inductive FieldValue where
  | integer (n : Nat)
  | byteArray (b : QByteArray)
  | string (s : QString)
  | nothing
deriving DecidableEq

/-- The effect of one call: the value returned and the cursor after. -/
def FieldCall.apply : FieldCall → QPalmDBRecord → FieldValue × QPalmDBRecord
  | .integerField w, r => (.integer (r.integerField w).1, (r.integerField w).2)
  | .byteArrayField size, r =>
    (.byteArray (r.byteArrayField (size : Int)).1, (r.byteArrayField (size : Int)).2)
  | .stringField, r => (.string r.stringField.1, r.stringField.2)
  | .rewind, r => (.nothing, r.rewind)

/-- The calls of a sequence, one after the other: for each call, the value it returns and
the cursor position after it. -/
def FieldCall.run : List FieldCall → QPalmDBRecord → List (FieldValue × Int)
  | [], _ => []
  | c :: cs, r => ((c.apply r).1, (c.apply r).2.offset) :: FieldCall.run cs (c.apply r).2

/-- A call has the bytes it needs: `sizeof (T)` or `size` bytes remain, or a NUL byte lies
at or after the cursor. -/
def FieldCall.inBounds : FieldCall → QPalmDBRecord → Bool
  | .integerField w, r => decide (r.offset + (w : Int) ≤ (r.data.length : Int))
  | .byteArrayField size, r => decide (r.offset + (size : Int) ≤ (r.data.length : Int))
  | .stringField, r => (r.data.drop r.offset.toNat).contains 0
  | .rewind, _ => true

/-- Every call of the sequence has the bytes it needs when its turn comes. -/
def FieldCall.allInBounds : List FieldCall → QPalmDBRecord → Bool
  | [], _ => true
  | c :: cs, r => c.inBounds r && FieldCall.allInBounds cs (c.apply r).2

/-! ## Loading by file name -/

/-- A `QFile` that is not open. -/
def QFile.unopened : QFile := { bytes := [], pos := 0, readable := false }

/-- The overload `QPalmDBPrivate::load (const QString &a_fileName)`, over a file system `fs`
that gives the content of the files that can be opened: the object takes a `QFile` of its
own unless it has one, names it (which closes it if it was open), opens it for reading,
and runs `load ()`. -/
def loadFileName (fs : QString → Option (List UInt8)) (d : QPalmDBPrivate)
    (a_fileName : QString) : Bool × QPalmDBPrivate :=
  let d1 :=
    if !d.ownsFilePtr then { d with file := some QFile.unopened, ownsFilePtr := true } else d
  match fs a_fileName with
  | none => (false, { d1 with file := some QFile.unopened })
  | some bytes => load { d1 with file := some (QFile.opened bytes) }

/-! ## Reading all records -/

/-- The calls `record (0)`, …, `record (k - 1)` in this order on the same object: the bytes
of the records returned and the object afterwards. -/
def recordsUpTo : Nat → QPalmDBPrivate → Except Fault (List QByteArray × QPalmDBPrivate)
  | 0, d => .ok ([], d)
  | k + 1, d =>
    match recordsUpTo k d with
    | .error e => .error e
    | .ok (bs, d1) =>
      match record d1 (k : Int) with
      | .error e => .error e
      | .ok (r, d2) => .ok (bs ++ [r.data], d2)

/-! ## Example sources -/

/-- The example database of the specification: name `TestDB`, flags 0, version 1, two
records at offsets 94 and 100, 110 bytes in all. -/
def testDBSource : List UInt8 :=
  [84, 101, 115, 116, 68, 66] ++ List.replicate 26 0 ++ [0, 0] ++ [0, 1] ++
    List.replicate 40 0 ++ [0, 2] ++
    [0, 0, 0, 94] ++ [0x40, 0x12, 0x34, 0x56] ++ [0, 0, 0, 100] ++ [0, 0, 0, 7] ++
    [200, 201, 202, 203, 204, 205, 206, 207, 208, 209, 210, 211, 212, 213, 214, 215]

/-- The database object built from `testDBSource`. -/
def testDB : QPalmDBPrivate := (QPalmDBPrivate.ofFile (QFile.opened testDBSource)).2

/-- A source like `testDBSource` whose second entry offset, 94, is smaller than the first,
100. -/
def decreasingOffsetsSource : List UInt8 :=
  [84, 101, 115, 116, 68, 66] ++ List.replicate 26 0 ++ [0, 0] ++ [0, 1] ++
    List.replicate 40 0 ++ [0, 2] ++
    [0, 0, 0, 100] ++ [0, 0, 0, 1] ++ [0, 0, 0, 94] ++ [0, 0, 0, 2] ++
    [200, 201, 202, 203, 204, 205, 206, 207, 208, 209, 210, 211, 212, 213, 214, 215]

/-- The first 77 bytes of `testDBSource`: a source that ends one byte before the end of the
header.  The only read that comes back short is the last one, of `numRecords`; it returns the
single byte 0, and the byte decoded after it is the array's NUL terminator. -/
def truncatedSource : List UInt8 := testDBSource.take 77

/-- A resource database: name `ResDB`, flags `0x0001` (Resource), one entry with type
`ABCD`, id 2 and offset 88, then four payload bytes; 92 bytes in all. -/
def resourceSource : List UInt8 :=
  [82, 101, 115, 68, 66] ++ List.replicate 27 0 ++ [0, 1] ++ [0, 1] ++
    List.replicate 40 0 ++ [0, 1] ++
    [65, 66, 67, 68] ++ [0, 2] ++ [0, 0, 0, 88] ++ [1, 2, 3, 4]

/-- The raw timestamp 2082844800, the number of seconds from 1904-01-01T00:00:00Z to
1970-01-01T00:00:00Z, in big-endian bytes. -/
def unixEpochAsPalmBytes : QByteArray := [0x7C, 0x25, 0xB0, 0x80]

/-- A second database file: name `Other`, flags 0, one record at offset 86, 90 bytes. -/
def otherSource : List UInt8 :=
  [79, 116, 104, 101, 114] ++ List.replicate 27 0 ++ [0, 0] ++ [0, 1] ++
    List.replicate 40 0 ++ [0, 1] ++
    [0, 0, 0, 86] ++ [0, 0, 0, 9] ++ [1, 2, 3, 4]

/-- A file system with the files `a` (`testDBSource`) and `b` (`otherSource`). -/
def twoFiles (a_fileName : QString) : Option (List UInt8) :=
  if a_fileName = [ 'a'] then some testDBSource
  else if a_fileName = [ 'b'] then some otherSource
  else none

/-- The object built by the constructor `QPalmDB (QFile *)` over `testDBSource`, after a call
`load ("b")` with the file system `twoFiles`: the flag of that load and the state. -/
def loadedTwice : Bool × QPalmDBPrivate :=
  loadFileName twoFiles (QPalmDBPrivate.ofFile (QFile.opened testDBSource)).2 [ 'b']

/-! ## Auxiliary lemmas -/

theorem toQuint32_sub_of_le (a b : Nat) (hab : b ≤ a) (ha : a < 2 ^ 32) :
    toQuint32 ((a : Int) - b) = a - b := by
  unfold toQuint32
  omega

theorem qFromBigEndian_lt (w : Nat) (src : QByteArray) : qFromBigEndian w src < 256 ^ w := by
  induction w generalizing src with
  | zero => simp [qFromBigEndian]
  | succ w ih =>
    have h1 := ih src.tail
    have h2 : (src.headD 0).toNat < 256 := UInt8.toNat_lt_size _
    simp only [qFromBigEndian, pow_succ]
    nlinarith

theorem QFile.read_bytes (f : QFile) (n : Nat) : (f.read n).2.bytes = f.bytes := rfl

theorem loadRecordsEntriesBody_bytes (i : Nat) (st : QFile × List PDBRecordEntry) :
    (loadRecordsEntriesBody i st).1.bytes = st.1.bytes := rfl

theorem loadRecordsEntriesLoop_bytes (k : Nat) (st : QFile × List PDBRecordEntry) :
    (loadRecordsEntriesLoop k st).1.bytes = st.1.bytes := by
  induction k with
  | zero => rfl
  | succ k ih => rw [loadRecordsEntriesLoop, loadRecordsEntriesBody_bytes, ih]

theorem loadRecordsEntriesBody_length (i : Nat) (st : QFile × List PDBRecordEntry) :
    (loadRecordsEntriesBody i st).2.length = st.2.length + 1 := by
  unfold loadRecordsEntriesBody
  split <;> simp

theorem loadRecordsEntriesLoop_length (k : Nat) (st : QFile × List PDBRecordEntry) :
    (loadRecordsEntriesLoop k st).2.length = st.2.length + k := by
  induction k with
  | zero => rfl
  | succ k ih => rw [loadRecordsEntriesLoop, loadRecordsEntriesBody_length, ih]; omega

/-- Rewriting the length of one entry leaves every entry in place with its offset, attribute
and unique ID. -/
theorem modify_length_getElem? (es : List PDBRecordEntry) (j i : Nat) (v : PDBRecordEntry → Nat)
    (e : PDBRecordEntry)
    (h : (es.modify (fun pre => { pre with length := v pre }) j)[i]? = some e) :
    ∃ e0, es[i]? = some e0 ∧ e.offset = e0.offset ∧ e.attr = e0.attr ∧ e.uniqueID = e0.uniqueID ∧
      e.length = if j = i then v e0 else e0.length := by
  rw [List.getElem?_modify] at h
  cases h0 : es[i]? with
  | none => simp [h0] at h
  | some e0 =>
    refine ⟨e0, rfl, ?_⟩
    simp only [h0, Option.map_eq_map, Option.map_some', Option.some.injEq] at h
    subst h
    split <;> simp

/-- One loop iteration keeps the invariant: every entry that has a successor has the 32-bit
difference of the two offsets as its length. -/
theorem snoc_step_consecutive (es : List PDBRecordEntry) (re : PDBRecordEntry) (k : Nat)
    (hlen : es.length = k)
    (hcons : ∀ i e e', es[i]? = some e → es[i + 1]? = some e' →
      e.length = toQuint32 ((e'.offset : Int) - e.offset))
    (i : Nat) (e e' : PDBRecordEntry)
    (h1 : ((if 0 < k then
        es.modify (fun pre => { pre with length := toQuint32 ((re.offset : Int) - pre.offset) })
          (k - 1)
      else es) ++ [re])[i]? = some e)
    (h2 : ((if 0 < k then
        es.modify (fun pre => { pre with length := toQuint32 ((re.offset : Int) - pre.offset) })
          (k - 1)
      else es) ++ [re])[i + 1]? = some e') :
    e.length = toQuint32 ((e'.offset : Int) - e.offset) := by
  have hk : 0 < k := by
    by_contra hk
    have : k = 0 := by omega
    subst this
    have : es = [] := List.length_eq_zero.mp hlen
    subst this
    simp at h2
  rw [if_pos hk] at h1 h2
  have hi : i < k := by
    by_contra hi
    rw [List.getElem?_append_right (by simp [hlen]; omega)] at h2
    simp only [List.length_modify, hlen] at h2
    have : i + 1 - k = (i - k) + 1 := by omega
    rw [this] at h2
    simp at h2
  rw [List.getElem?_append_left (by simp [hlen]; omega)] at h1
  obtain ⟨e0, he0, ho, -, -, hl⟩ := modify_length_getElem? es (k - 1) i _ e h1
  by_cases hlast : i + 1 = k
  · rw [List.getElem?_append_right (by simp [hlen]; omega)] at h2
    simp only [List.length_modify, hlen] at h2
    have : i + 1 - k = 0 := by omega
    rw [this] at h2
    simp only [List.getElem?_cons_zero, Option.some.injEq] at h2
    subst h2
    rw [hl, if_pos (by omega), ho]
  · rw [List.getElem?_append_left (by simp [hlen]; omega)] at h2
    obtain ⟨e1, he1, ho1, -, -, -⟩ := modify_length_getElem? es (k - 1) (i + 1) _ e' h2
    rw [hl, if_neg (by omega), ho, ho1]
    exact hcons i e0 e1 he0 he1

theorem loadRecordsEntriesBody_snd (i : Nat) (st : QFile × List PDBRecordEntry) :
    ∃ re : PDBRecordEntry,
      re.offset = qFromBigEndian 4 ((st.1.bytes.drop st.1.pos).take 4) ∧
      (loadRecordsEntriesBody i st).2 =
        (if 0 < i then
          st.2.modify
            (fun pre => { pre with length := toQuint32 ((re.offset : Int) - pre.offset) }) (i - 1)
        else st.2) ++ [re] :=
  ⟨_, rfl, rfl⟩

/-- The loop invariant on a list that starts empty. -/
theorem loadRecordsEntriesLoop_consecutive (k : Nat) (f : QFile) (i : Nat) (e e' : PDBRecordEntry)
    (h1 : (loadRecordsEntriesLoop k (f, [])).2[i]? = some e)
    (h2 : (loadRecordsEntriesLoop k (f, [])).2[i + 1]? = some e') :
    e.length = toQuint32 ((e'.offset : Int) - e.offset) := by
  induction k generalizing i e e' with
  | zero => simp [loadRecordsEntriesLoop] at h1
  | succ k ih =>
    rw [loadRecordsEntriesLoop] at h1 h2
    obtain ⟨re, -, hre⟩ := loadRecordsEntriesBody_snd k (loadRecordsEntriesLoop k (f, []))
    rw [hre] at h1 h2
    have hlen := loadRecordsEntriesLoop_length k (f, [])
    simp only [List.length_nil, Nat.zero_add] at hlen
    exact snoc_step_consecutive _ re k hlen ih i e e' h1 h2

theorem loadRecordsEntries_fst (d : QPalmDBPrivate) (f : QFile) :
    (loadRecordsEntries d f).1 = true := rfl

theorem loadRecordsEntries_header (d : QPalmDBPrivate) (f : QFile) :
    (loadRecordsEntries d f).2.header = d.header := rfl

theorem loadRecordsEntries_file (d : QPalmDBPrivate) (f : QFile) :
    ∃ f', (loadRecordsEntries d f).2.file = some f' ∧ f'.bytes = f.bytes :=
  ⟨_, rfl, loadRecordsEntriesLoop_bytes _ _⟩

theorem loadRecordsEntries_length (d : QPalmDBPrivate) (f : QFile) :
    (loadRecordsEntries d f).2.recordsEntries.length =
      d.recordsEntries.length + d.header.numRecords := by
  unfold loadRecordsEntries
  have := loadRecordsEntriesLoop_length d.header.numRecords (f, d.recordsEntries)
  split <;> simp [this]

theorem loadRecordsEntries_consecutive (d : QPalmDBPrivate) (f : QFile)
    (hd : d.recordsEntries = []) (i : Nat) (e e' : PDBRecordEntry)
    (h1 : (loadRecordsEntries d f).2.recordsEntries[i]? = some e)
    (h2 : (loadRecordsEntries d f).2.recordsEntries[i + 1]? = some e') :
    e.length = toQuint32 ((e'.offset : Int) - e.offset) := by
  have hlen := loadRecordsEntries_length d f
  have hi : i + 1 < d.header.numRecords := by
    have := (List.getElem?_eq_some.mp h2).1
    simp [hd] at hlen
    omega
  unfold loadRecordsEntries at h1 h2
  simp only [hd] at h1 h2
  rw [if_pos (by omega)] at h1 h2
  obtain ⟨e0, he0, ho, -, -, hl⟩ := modify_length_getElem? _ _ i _ e h1
  obtain ⟨e1, he1, ho1, -, -, -⟩ := modify_length_getElem? _ _ (i + 1) _ e' h2
  rw [hl, if_neg (by omega), ho, ho1]
  exact loadRecordsEntriesLoop_consecutive _ f i e0 e1 he0 he1

theorem loadRecordsEntries_last (d : QPalmDBPrivate) (f : QFile) (e : PDBRecordEntry)
    (hn : 0 < d.header.numRecords)
    (h : (loadRecordsEntries d f).2.recordsEntries[d.header.numRecords - 1]? = some e) :
    e.length = toQuint32 ((f.bytes.length : Int) - e.offset) := by
  unfold loadRecordsEntries at h
  simp only at h
  rw [if_pos hn] at h
  obtain ⟨e0, -, ho, -, -, hl⟩ := modify_length_getElem? _ _ _ _ e h
  rw [hl, if_pos rfl, ho, QFile.size, loadRecordsEntriesLoop_bytes]

theorem readHeader_bytes (f : QFile) : (readHeader f).2.bytes = f.bytes := by
  simp only [readHeader, QFile.read_bytes]

theorem load_header (d : QPalmDBPrivate) (f : QFile) (hf : d.file = some f)
    (hr : f.readable = true) : (load d).2.header = (readHeader f).1 := by
  unfold load
  simp only [hf, hr, Bool.not_true, Bool.false_eq_true, if_false]
  split <;> rfl

theorem load_records (d : QPalmDBPrivate) (f : QFile) (hf : d.file = some f)
    (hr : f.readable = true)
    (hres : testFlag (load d).2.header.flags HeaderFlag.Resource = false) :
    load d =
      loadRecordsEntries { d with header := (readHeader f).1, file := some (readHeader f).2 }
        (readHeader f).2 := by
  rw [load_header d f hf hr] at hres
  unfold load
  simp only [hf, hr, Bool.not_true, Bool.false_eq_true, if_false, hres]

/-- A load from a fresh object that does not take the resource path is a run of
`loadRecordsEntries` on an empty entry list over the same bytes. -/
theorem ofFile_records (src : List UInt8) (d : QPalmDBPrivate) (b : Bool)
    (hload : QPalmDBPrivate.ofFile (QFile.opened src) = (b, d))
    (hres : testFlag d.header.flags HeaderFlag.Resource = false) :
    ∃ d1 : QPalmDBPrivate, ∃ f1 : QFile,
      d1.recordsEntries = [] ∧ d1.header = d.header ∧ f1.bytes = src ∧
      loadRecordsEntries d1 f1 = (b, d) := by
  unfold QPalmDBPrivate.ofFile at hload
  have hd : d = (load { QPalmDBPrivate.init with
      file := some (QFile.opened src), ownsFilePtr := false }).2 := by rw [hload]
  rw [hd] at hres
  have h := load_records _ (QFile.opened src) rfl rfl hres
  rw [hload] at h
  refine ⟨_, _, ?_, ?_, ?_, h.symm⟩
  · rfl
  · have := congrArg (fun p => p.2.header) h
    simp only [loadRecordsEntries_header] at this
    exact this.symm
  · rfl

/-- With non-decreasing offsets bounded by a source length below `2 ^ 32`, no subtraction
wraps: the entries tile the source up to its end. -/
theorem ofFile_exact (src : List UInt8) (d : QPalmDBPrivate) (b : Bool)
    (hload : QPalmDBPrivate.ofFile (QFile.opened src) = (b, d))
    (hres : testFlag d.header.flags HeaderFlag.Resource = false)
    (hL : src.length < 2 ^ 32)
    (hmono : (d.recordsEntries.map PDBRecordEntry.offset).Pairwise (fun a b => a ≤ b))
    (hlast : ∀ e ∈ d.recordsEntries.getLast?, e.offset ≤ src.length) :
    b = true ∧ d.recordsEntries.length = d.header.numRecords ∧
    (∃ f', d.file = some f' ∧ f'.bytes = src) ∧
    (∀ (i : Nat) (e e' : PDBRecordEntry), d.recordsEntries[i]? = some e → d.recordsEntries[i + 1]? = some e' →
      e.offset + e.length = e'.offset) ∧
    (∀ e : PDBRecordEntry, d.recordsEntries[d.header.numRecords - 1]? = some e → e.offset + e.length = src.length) ∧
    (∀ (i : Nat) (e : PDBRecordEntry), d.recordsEntries[i]? = some e →
      e.offset + e.length ≤ src.length) := by
  obtain ⟨d1, f1, hnil, hhdr, hbytes, hrun⟩ := ofFile_records src d b hload hres
  have hb : b = true := by rw [← loadRecordsEntries_fst d1 f1, hrun]
  have hd : d = (loadRecordsEntries d1 f1).2 := by rw [hrun]
  have hlen : d.recordsEntries.length = d.header.numRecords := by
    rw [hd, loadRecordsEntries_length, hnil, loadRecordsEntries_header]; simp
  have hfile : ∃ f', d.file = some f' ∧ f'.bytes = src := by
    obtain ⟨f', h1, h2⟩ := loadRecordsEntries_file d1 f1
    exact ⟨f', by rw [hd, h1], by rw [h2, hbytes]⟩
  rw [List.pairwise_map, List.pairwise_iff_getElem] at hmono
  -- every offset is at most the source length
  have hle : ∀ (i : Nat) (e : PDBRecordEntry), d.recordsEntries[i]? = some e →
      e.offset ≤ src.length := by
    intro i e hi
    obtain ⟨hi1, hi2⟩ := List.getElem?_eq_some.mp hi
    have hlt : d.recordsEntries.length - 1 < d.recordsEntries.length := by omega
    have hl := hlast d.recordsEntries[d.recordsEntries.length - 1]
      (by rw [List.getLast?_eq_getElem?]; exact List.getElem?_eq_getElem hlt)
    by_cases hc : i = d.recordsEntries.length - 1
    · subst hc; rw [← hi2]; exact hl
    · have := hmono i (d.recordsEntries.length - 1) hi1 (by omega) (by omega)
      rw [← hi2]; omega
  have hcons : ∀ (i : Nat) (e e' : PDBRecordEntry), d.recordsEntries[i]? = some e → d.recordsEntries[i + 1]? = some e' →
      e.offset + e.length = e'.offset := by
    intro i e e' h1 h2
    have hw : e.length = toQuint32 ((e'.offset : Int) - e.offset) := by
      rw [hd] at h1 h2
      exact loadRecordsEntries_consecutive d1 f1 hnil i e e' h1 h2
    obtain ⟨hi1, hi2⟩ := List.getElem?_eq_some.mp h1
    obtain ⟨hj1, hj2⟩ := List.getElem?_eq_some.mp h2
    have hm := hmono i (i + 1) hi1 hj1 (by omega)
    rw [hi2, hj2] at hm
    have hb' := hle (i + 1) e' h2
    rw [hw, toQuint32_sub_of_le _ _ hm (by omega)]
    omega
  have hfin : ∀ e : PDBRecordEntry, d.recordsEntries[d.header.numRecords - 1]? = some e →
      e.offset + e.length = src.length := by
    intro e he
    have hn : 0 < d.header.numRecords := by
      have := (List.getElem?_eq_some.mp he).1
      omega
    have hw : e.length = toQuint32 ((src.length : Int) - e.offset) := by
      have he' : (loadRecordsEntries d1 f1).2.recordsEntries[d1.header.numRecords - 1]? =
          some e := by
        rw [hhdr, ← hd]; exact he
      rw [← hbytes]
      exact loadRecordsEntries_last d1 f1 e (by rw [hhdr]; exact hn) he'
    have hb' := hle _ e he
    rw [hw, toQuint32_sub_of_le _ _ hb' hL]
    omega
  refine ⟨hb, hlen, hfile, hcons, hfin, ?_⟩
  intro i e hi
  obtain ⟨hi1, hi2⟩ := List.getElem?_eq_some.mp hi
  by_cases hc : i + 1 < d.recordsEntries.length
  · have h2 : d.recordsEntries[i + 1]? = some d.recordsEntries[i + 1] :=
      List.getElem?_eq_getElem hc
    have := hcons i e _ hi h2
    have := hle (i + 1) _ h2
    omega
  · have hi' : i = d.header.numRecords - 1 := by omega
    subst hi'
    have := hfin e hi
    omega

/-! ## Record lookup and entry lengths (C1, C2) -/

/-- C1: for a source that loads as a non-resource database whose entry offsets are
non-decreasing, with the last offset at most the source length and that length below
`2 ^ 32`, and for every index `0 ≤ i < numRecords ()`, `record (i)` returns a record whose
bytes are the source bytes in `[offset, offset + length)` of entry `i`, a range that lies
inside the source, with the cursor at 0. -/
theorem record_returns_entry_bytes (src : List UInt8) (d : QPalmDBPrivate)
    (hload : QPalmDBPrivate.ofFile (QFile.opened src) = (true, d))
    (hres : testFlag d.header.flags HeaderFlag.Resource = false)
    (hL : src.length < 2 ^ 32)
    (hmono : (d.recordsEntries.map PDBRecordEntry.offset).Pairwise (fun a b => a ≤ b))
    (hlast : ∀ e ∈ d.recordsEntries.getLast?, e.offset ≤ src.length)
    (i : Int) (h0 : 0 ≤ i) (hi : i < numRecords d) :
    ∃ (e : PDBRecordEntry) (d' : QPalmDBPrivate),
      d.recordsEntries[i.toNat]? = some e ∧ e.offset + e.length ≤ src.length ∧
      ((src.drop e.offset).take e.length).length = e.length ∧
      record d i = .ok ({ data := (src.drop e.offset).take e.length, offset := 0 }, d') := by
  obtain ⟨-, hlen, ⟨f', hf, hbytes⟩, -, -, hin⟩ := ofFile_exact src d true hload hres hL hmono hlast
  unfold numRecords at hi
  have hidx : i.toNat < d.recordsEntries.length := by omega
  have he : d.recordsEntries[i.toNat]? = some d.recordsEntries[i.toNat] :=
    List.getElem?_eq_getElem hidx
  have hbound := hin _ _ he
  refine ⟨d.recordsEntries[i.toNat],
    { d with file := some ((f'.seek d.recordsEntries[i.toNat].offset).read
        d.recordsEntries[i.toNat].length).2 }, he, hbound, ?_, ?_⟩
  · rw [List.length_take, List.length_drop]; omega
  · unfold record
    rw [if_neg (by omega), if_neg (by omega)]
    simp only [he, hf, QFile.read, QFile.seek, hbytes, QPalmDBRecord.ofData]

/-- C1, on the example: the hypotheses hold for `testDBSource`, `record (0)` is the bytes
`[94, 100)` and `record (1)` the bytes `[100, 110)`. -/
theorem record_returns_entry_bytes_witness :
    (∃ (e : PDBRecordEntry) (d' : QPalmDBPrivate),
      testDB.recordsEntries[(1 : Int).toNat]? = some e ∧ e.offset + e.length ≤ testDBSource.length ∧
      ((testDBSource.drop e.offset).take e.length).length = e.length ∧
      record testDB 1 =
        .ok ({ data := (testDBSource.drop e.offset).take e.length, offset := 0 }, d')) ∧
    testDB.recordsEntries.map (fun e => (e.offset, e.length)) = [(94, 6), (100, 10)] ∧
    testDBSource.length = 110 ∧
    (∃ d' : QPalmDBPrivate, record testDB 0 =
      .ok ({ data := [200, 201, 202, 203, 204, 205], offset := 0 }, d')) ∧
    (∃ d' : QPalmDBPrivate, record testDB 1 =
      .ok ({ data := [206, 207, 208, 209, 210, 211, 212, 213, 214, 215], offset := 0 }, d')) :=
  ⟨record_returns_entry_bytes testDBSource testDB rfl (by decide) (by decide) (by decide)
    (by decide) 1 (by decide) (by decide), by decide, by decide, ⟨_, rfl⟩, ⟨_, rfl⟩⟩

/-- C2: after loading a non-resource database with `n ≥ 1` entries from a source of length
`L < 2 ^ 32` whose offsets are non-decreasing with the last offset at most `L`, there are
`n` entries, each entry but the last has length `next offset - offset`, and the last has
length `L - offset`, as exact integers. -/
theorem entry_lengths_exact (src : List UInt8) (d : QPalmDBPrivate)
    (hload : QPalmDBPrivate.ofFile (QFile.opened src) = (true, d))
    (hres : testFlag d.header.flags HeaderFlag.Resource = false)
    (hn : 1 ≤ d.header.numRecords)
    (hL : src.length < 2 ^ 32)
    (hmono : (d.recordsEntries.map PDBRecordEntry.offset).Pairwise (fun a b => a ≤ b))
    (hlast : ∀ e ∈ d.recordsEntries.getLast?, e.offset ≤ src.length) :
    d.recordsEntries.length = d.header.numRecords ∧
    (∀ i : Nat, i + 1 < d.header.numRecords →
      ∃ e e' : PDBRecordEntry, d.recordsEntries[i]? = some e ∧
        d.recordsEntries[i + 1]? = some e' ∧
        (e.length : Int) = (e'.offset : Int) - (e.offset : Int)) ∧
    (∃ e : PDBRecordEntry, d.recordsEntries[d.header.numRecords - 1]? = some e ∧
      (e.length : Int) = (src.length : Int) - (e.offset : Int)) := by
  obtain ⟨-, hlen, -, hcons, hfin, -⟩ := ofFile_exact src d true hload hres hL hmono hlast
  refine ⟨hlen, ?_, ?_⟩
  · intro i hi
    have h1 : d.recordsEntries[i]? = some d.recordsEntries[i] :=
      List.getElem?_eq_getElem (by omega)
    have h2 : d.recordsEntries[i + 1]? = some d.recordsEntries[i + 1] :=
      List.getElem?_eq_getElem (by omega)
    refine ⟨_, _, h1, h2, ?_⟩
    have := hcons i _ _ h1 h2
    omega
  · have h1 : d.recordsEntries[d.header.numRecords - 1]? =
        some d.recordsEntries[d.header.numRecords - 1] :=
      List.getElem?_eq_getElem (by omega)
    refine ⟨_, h1, ?_⟩
    have := hfin _ h1
    omega

/-- C2, on the example: the hypotheses hold for `testDBSource` and its two entries have
lengths 6 and 10. -/
theorem entry_lengths_exact_witness :
    (testDB.recordsEntries.length = testDB.header.numRecords ∧
    (∀ i : Nat, i + 1 < testDB.header.numRecords →
      ∃ e e' : PDBRecordEntry, testDB.recordsEntries[i]? = some e ∧
        testDB.recordsEntries[i + 1]? = some e' ∧
        (e.length : Int) = (e'.offset : Int) - (e.offset : Int)) ∧
    (∃ e : PDBRecordEntry, testDB.recordsEntries[testDB.header.numRecords - 1]? = some e ∧
      (e.length : Int) = (testDBSource.length : Int) - (e.offset : Int))) ∧
    testDB.header.numRecords = 2 ∧
    testDB.recordsEntries.map PDBRecordEntry.length = [6, 10] :=
  ⟨entry_lengths_exact testDBSource testDB rfl (by decide) (by decide) (by decide) (by decide)
    (by decide), by decide, by decide⟩

/-! ## Indices outside the entry table (C3) -/

/-- An index at or past the end of the record-entry list yields the empty record and leaves
the object, its file included, as it was. -/
theorem record_past_end (d : QPalmDBPrivate) (a_idx : Int)
    (h : (d.recordsEntries.length : Int) ≤ a_idx) :
    record d a_idx = .ok (QPalmDBRecord.ofData [], d) := by
  unfold record
  rw [if_pos h]

/-- C3, the failing input: on the example database, which has two records, `record (-1)`
passes the guard `recordsEntries.size () <= a_idx` and indexes the entry list at `-1`. -/
theorem record_negative_index :
    numRecords testDB = 2 ∧ ¬ ((testDB.recordsEntries.length : Int) ≤ -1) ∧
    record testDB (-1) = .error Fault.indexOutOfRange :=
  ⟨by decide, by decide, rfl⟩

/-! ## No validation of offsets or of the source length (C4, C5) -/

/-- The value of `toQuint32` as an integer. -/
theorem toQuint32_cast (x : Int) : ((toQuint32 x : Nat) : Int) = x % 2 ^ 32 := by
  unfold toQuint32
  omega

/-- C4, counterexample: `decreasingOffsetsSource` has entry offsets 100 and 94; the load
reports success and the first entry gets the wrapped-around length `2 ^ 32 - 6`. -/
theorem load_accepts_decreasing_offsets :
    (QPalmDBPrivate.ofFile (QFile.opened decreasingOffsetsSource)).1 = true ∧
    (QPalmDBPrivate.ofFile (QFile.opened decreasingOffsetsSource)).2.recordsEntries.map
      (fun e => (e.offset, e.length)) = [(100, 4294967290), (94, 16)] := by
  decide

/-- C4, amended: entry-table decoding of a non-resource source checks nothing and reports
success; there are `numRecords` entries, each entry but the last has length
`(next offset - offset) mod 2 ^ 32` and the last has length
`(source length - offset) mod 2 ^ 32`. -/
theorem load_lengths_mod_2_32 (src : List UInt8) (b : Bool) (d : QPalmDBPrivate)
    (hload : QPalmDBPrivate.ofFile (QFile.opened src) = (b, d))
    (hres : testFlag d.header.flags HeaderFlag.Resource = false) :
    b = true ∧ d.recordsEntries.length = d.header.numRecords ∧
    (∀ i : Nat, i + 1 < d.header.numRecords →
      ∃ e e' : PDBRecordEntry, d.recordsEntries[i]? = some e ∧
        d.recordsEntries[i + 1]? = some e' ∧
        (e.length : Int) = ((e'.offset : Int) - (e.offset : Int)) % 2 ^ 32) ∧
    (0 < d.header.numRecords →
      ∃ e : PDBRecordEntry, d.recordsEntries[d.header.numRecords - 1]? = some e ∧
        (e.length : Int) = ((src.length : Int) - (e.offset : Int)) % 2 ^ 32) := by
  obtain ⟨d1, f1, hnil, hhdr, hbytes, hrun⟩ := ofFile_records src d b hload hres
  have hb : b = true := by rw [← loadRecordsEntries_fst d1 f1, hrun]
  have hd : d = (loadRecordsEntries d1 f1).2 := by rw [hrun]
  have hlen : d.recordsEntries.length = d.header.numRecords := by
    rw [hd, loadRecordsEntries_length, hnil, loadRecordsEntries_header]; simp
  refine ⟨hb, hlen, ?_, ?_⟩
  · intro i hi
    obtain ⟨e, h1⟩ : ∃ e, d.recordsEntries[i]? = some e :=
      ⟨_, List.getElem?_eq_getElem (by omega)⟩
    obtain ⟨e', h2⟩ : ∃ e', d.recordsEntries[i + 1]? = some e' :=
      ⟨_, List.getElem?_eq_getElem (by omega)⟩
    refine ⟨e, e', h1, h2, ?_⟩
    rw [← toQuint32_cast]
    congr 1
    rw [hd] at h1 h2
    exact loadRecordsEntries_consecutive d1 f1 hnil i e e' h1 h2
  · intro hn
    obtain ⟨e, h1⟩ : ∃ e, d.recordsEntries[d.header.numRecords - 1]? = some e :=
      ⟨_, List.getElem?_eq_getElem (by omega)⟩
    refine ⟨e, h1, ?_⟩
    rw [← toQuint32_cast, ← hbytes]
    congr 1
    have h1' : (loadRecordsEntries d1 f1).2.recordsEntries[d1.header.numRecords - 1]? =
        some e := by
      rw [hhdr, ← hd]; exact h1
    exact loadRecordsEntries_last d1 f1 e (by rw [hhdr]; exact hn) h1'

/-- C4, amended, on `decreasingOffsetsSource`: the load succeeds and the lengths are the
differences modulo `2 ^ 32`. -/
theorem load_lengths_mod_2_32_witness :
    true = true ∧
    (QPalmDBPrivate.ofFile (QFile.opened decreasingOffsetsSource)).2.recordsEntries.length =
      (QPalmDBPrivate.ofFile (QFile.opened decreasingOffsetsSource)).2.header.numRecords ∧
    (∀ i : Nat,
      i + 1 < (QPalmDBPrivate.ofFile (QFile.opened decreasingOffsetsSource)).2.header.numRecords →
      ∃ e e' : PDBRecordEntry,
        (QPalmDBPrivate.ofFile (QFile.opened decreasingOffsetsSource)).2.recordsEntries[i]? =
          some e ∧
        (QPalmDBPrivate.ofFile (QFile.opened decreasingOffsetsSource)).2.recordsEntries[i + 1]? =
          some e' ∧
        (e.length : Int) = ((e'.offset : Int) - (e.offset : Int)) % 2 ^ 32) ∧
    (0 < (QPalmDBPrivate.ofFile (QFile.opened decreasingOffsetsSource)).2.header.numRecords →
      ∃ e : PDBRecordEntry,
        (QPalmDBPrivate.ofFile (QFile.opened decreasingOffsetsSource)).2.recordsEntries[
          (QPalmDBPrivate.ofFile (QFile.opened decreasingOffsetsSource)).2.header.numRecords - 1]? =
          some e ∧
        (e.length : Int) = ((decreasingOffsetsSource.length : Int) - (e.offset : Int)) % 2 ^ 32) :=
  load_lengths_mod_2_32 decreasingOffsetsSource true
    (QPalmDBPrivate.ofFile (QFile.opened decreasingOffsetsSource)).2 rfl (by decide)

/-- C5, counterexample: `truncatedSource` is readable and holds 77 bytes; the load returns
`true` and exposes a database named `TestDB` with no records. -/
theorem load_accepts_truncated_header :
    truncatedSource.length = 77 ∧
    (QPalmDBPrivate.ofFile (QFile.opened truncatedSource)).1 = true ∧
    name (QPalmDBPrivate.ofFile (QFile.opened truncatedSource)).2 = [ 'T', 'e', 's', 't', 'D', 'B'] ∧
    numRecords (QPalmDBPrivate.ofFile (QFile.opened truncatedSource)).2 = 0 := by
  decide

/-- C5, amended: the load has no end-of-stream check; for every object whose file is
readable, whatever the number of bytes it holds, `load ()` returns `true`. -/
theorem load_readable_returns_true (d : QPalmDBPrivate) (f : QFile) (hf : d.file = some f)
    (hr : f.readable = true) : (load d).1 = true := by
  unfold load
  simp only [hf, hr, Bool.not_true, Bool.false_eq_true, if_false]
  split <;> rfl

/-- C5, amended, on the 77-byte `truncatedSource`. -/
theorem load_readable_returns_true_witness :
    truncatedSource.length < 78 ∧
    (load { QPalmDBPrivate.init with file := some (QFile.opened truncatedSource) }).1 = true :=
  ⟨by decide, load_readable_returns_true _ (QFile.opened truncatedSource) rfl rfl⟩

theorem headD_take_drop (src : List UInt8) (p w : Nat) :
    ((src.drop p).take (w + 1)).headD 0 = src.getD p 0 := by
  induction src generalizing p with
  | nil => simp
  | cons a l ih =>
    cases p with
    | zero => simp
    | succ p => simpa using ih p

theorem tail_take_drop (src : List UInt8) (p w : Nat) :
    ((src.drop p).take (w + 1)).tail = (src.drop (p + 1)).take w := by
  induction src generalizing p with
  | nil => simp
  | cons a l ih =>
    cases p with
    | zero => simp
    | succ p => simpa using ih p

theorem qFromBigEndian_two (src : List UInt8) (p : Nat) :
    qFromBigEndian 2 ((src.drop p).take 2) =
      (src.getD p 0).toNat * 256 + (src.getD (p + 1) 0).toNat := by
  simp only [qFromBigEndian, headD_take_drop, tail_take_drop]
  simp

theorem qFromBigEndian_four (src : List UInt8) (p : Nat) :
    qFromBigEndian 4 ((src.drop p).take 4) =
      (src.getD p 0).toNat * 2 ^ 24 + (src.getD (p + 1) 0).toNat * 2 ^ 16 +
        (src.getD (p + 2) 0).toNat * 2 ^ 8 + (src.getD (p + 3) 0).toNat := by
  simp only [qFromBigEndian, headD_take_drop, tail_take_drop, Nat.add_assoc]
  simp

theorem QFile.read_mk (bs : List UInt8) (p : Nat) (r : Bool) (n : Nat)
    (h : p + n ≤ bs.length) :
    QFile.read { bytes := bs, pos := p, readable := r } n =
      ((bs.drop p).take n, { bytes := bs, pos := p + n, readable := r }) := by
  simp only [QFile.read, List.length_take, List.length_drop]
  congr 2
  omega

/-- On a source of at least 78 bytes every header read is full. -/
theorem readHeader_opened (src : List UInt8) (h : 78 ≤ src.length) :
    (readHeader (QFile.opened src)).2 = { bytes := src, pos := 78, readable := true } ∧
    (readHeader (QFile.opened src)).1.name = fromLatin1 (src.take 32) ∧
    (readHeader (QFile.opened src)).1.flags = qFromBigEndian 2 ((src.drop 32).take 2) ∧
    (readHeader (QFile.opened src)).1.version = qFromBigEndian 2 ((src.drop 34).take 2) ∧
    (readHeader (QFile.opened src)).1.numRecords = qFromBigEndian 2 ((src.drop 76).take 2) := by
  simp (disch := omega) only [readHeader, QFile.opened, kMaxPDBNameSize, QFile.read_mk,
    List.drop_zero, Nat.zero_add, Nat.reduceAdd, and_self]

theorem loadRecordsEntriesBody_fst (i : Nat) (bs : List UInt8) (p : Nat) (r : Bool)
    (es : List PDBRecordEntry) (h : p + 8 ≤ bs.length) :
    (loadRecordsEntriesBody i ({ bytes := bs, pos := p, readable := r }, es)).1 =
      { bytes := bs, pos := p + 8, readable := r } := by
  simp (disch := omega) only [loadRecordsEntriesBody, QFile.read_mk, Nat.add_assoc,
    Nat.reduceAdd]

theorem loadRecordsEntriesLoop_fst (k : Nat) (bs : List UInt8) (p : Nat) (r : Bool)
    (es : List PDBRecordEntry) (h : p + 8 * k ≤ bs.length) :
    (loadRecordsEntriesLoop k ({ bytes := bs, pos := p, readable := r }, es)).1 =
      { bytes := bs, pos := p + 8 * k, readable := r } := by
  induction k with
  | zero => rfl
  | succ k ih =>
    have hk := ih (by omega)
    rw [loadRecordsEntriesLoop]
    have hst : loadRecordsEntriesLoop k ({ bytes := bs, pos := p, readable := r }, es) =
        ({ bytes := bs, pos := p + 8 * k, readable := r },
          (loadRecordsEntriesLoop k ({ bytes := bs, pos := p, readable := r }, es)).2) := by
      rw [← hk]
    rw [hst, loadRecordsEntriesBody_fst _ _ _ _ _ (by omega)]
    congr 1

/-- On a source that holds the whole entry table, entry `i` gets its offset from the four
bytes at `p + 8 i`. -/
theorem loadRecordsEntriesLoop_offset (k : Nat) (bs : List UInt8) (p : Nat) (r : Bool)
    (h : p + 8 * k ≤ bs.length) (i : Nat) (e : PDBRecordEntry)
    (he : (loadRecordsEntriesLoop k ({ bytes := bs, pos := p, readable := r }, [])).2[i]? =
      some e) :
    e.offset = qFromBigEndian 4 ((bs.drop (p + 8 * i)).take 4) := by
  induction k generalizing i e with
  | zero => simp [loadRecordsEntriesLoop] at he
  | succ k ih =>
    rw [loadRecordsEntriesLoop] at he
    obtain ⟨re, hre, hsnd⟩ := loadRecordsEntriesBody_snd k
      (loadRecordsEntriesLoop k ({ bytes := bs, pos := p, readable := r }, []))
    rw [loadRecordsEntriesLoop_fst k bs p r [] (by omega)] at hre
    have hlen := loadRecordsEntriesLoop_length k ({ bytes := bs, pos := p, readable := r }, [])
    simp only [List.length_nil, Nat.zero_add] at hlen
    rw [hsnd] at he
    by_cases hi : i < k
    · have hold : ∃ e0, (loadRecordsEntriesLoop k
          ({ bytes := bs, pos := p, readable := r }, [])).2[i]? = some e0 ∧
          e.offset = e0.offset := by
        split at he
        · rw [List.getElem?_append_left (by simp [hlen]; omega)] at he
          obtain ⟨e0, he0, ho, -⟩ := modify_length_getElem? _ _ i _ e he
          exact ⟨e0, he0, ho⟩
        · rw [List.getElem?_append_left (by omega)] at he
          exact ⟨e, he, rfl⟩
      obtain ⟨e0, he0, ho⟩ := hold
      rw [ho]
      exact ih (by omega) i e0 he0
    · have hlen' : (if 0 < k then
          (loadRecordsEntriesLoop k ({ bytes := bs, pos := p, readable := r }, [])).2.modify
            (fun pre => { pre with length := toQuint32 ((re.offset : Int) - pre.offset) })
            (k - 1)
        else (loadRecordsEntriesLoop k
          ({ bytes := bs, pos := p, readable := r }, [])).2).length = k := by
        split <;> simp [hlen]
      rw [List.getElem?_append_right (by omega), hlen'] at he
      have hik : i = k := by
        by_contra hne
        have : i - k = (i - k - 1) + 1 := by omega
        rw [this] at he
        simp at he
      subst hik
      simp only [Nat.sub_self, List.getElem?_cons_zero, Option.some.injEq] at he
      rw [← he, hre]

theorem loadRecordsEntries_offset (d : QPalmDBPrivate) (bs : List UInt8) (p : Nat) (r : Bool)
    (hd : d.recordsEntries = []) (h : p + 8 * d.header.numRecords ≤ bs.length)
    (i : Nat) (e : PDBRecordEntry)
    (he : (loadRecordsEntries d { bytes := bs, pos := p, readable := r }).2.recordsEntries[i]? =
      some e) :
    e.offset = qFromBigEndian 4 ((bs.drop (p + 8 * i)).take 4) := by
  unfold loadRecordsEntries at he
  simp only [hd] at he
  split at he
  · obtain ⟨e0, he0, ho, -⟩ := modify_length_getElem? _ _ i _ e he
    rw [ho]
    exact loadRecordsEntriesLoop_offset _ bs p r h i e0 he0
  · exact loadRecordsEntriesLoop_offset _ bs p r h i e he

theorem testFlag_resource_of_and_eq_zero (flags : Nat)
    (h : flags &&& HeaderFlag.Resource = 0) : testFlag flags HeaderFlag.Resource = false := by
  unfold testFlag
  rw [h]
  rfl

/-! ## Header and entry offsets of a complete source (C6) -/

/-- C6: for a source of at least `78 + 8 * n` bytes whose Resource bit (`0x0001` of the
big-endian `u16` at bytes 32-33) is clear, with `n` the big-endian `u16` at bytes 76-77:
the load succeeds, the header reads leave the source at position 78, `numRecords ()` is
`n`, the version is the big-endian `u16` at bytes 34-35, there are `n` record entries and
entry `i` has the offset given by the big-endian `u32` at bytes `78 + 8 i … 78 + 8 i + 3`. -/
theorem load_decodes_header_and_offsets (src : List UInt8) (n : Nat)
    (hn : n = (src.getD 76 0).toNat * 256 + (src.getD 77 0).toNat)
    (hlen : 78 + 8 * n ≤ src.length)
    (hflag : ((src.getD 32 0).toNat * 256 + (src.getD 33 0).toNat) &&& HeaderFlag.Resource = 0) :
    (QPalmDBPrivate.ofFile (QFile.opened src)).1 = true ∧
    (readHeader (QFile.opened src)).2.pos = 78 ∧
    numRecords (QPalmDBPrivate.ofFile (QFile.opened src)).2 = (n : Int) ∧
    (QPalmDBPrivate.ofFile (QFile.opened src)).2.header.version =
      (src.getD 34 0).toNat * 256 + (src.getD 35 0).toNat ∧
    (QPalmDBPrivate.ofFile (QFile.opened src)).2.recordsEntries.length = n ∧
    ∀ i : Nat, i < n →
      ∃ e : PDBRecordEntry,
        (QPalmDBPrivate.ofFile (QFile.opened src)).2.recordsEntries[i]? = some e ∧
        e.offset =
          (src.getD (78 + 8 * i) 0).toNat * 2 ^ 24 + (src.getD (78 + 8 * i + 1) 0).toNat * 2 ^ 16 +
            (src.getD (78 + 8 * i + 2) 0).toNat * 2 ^ 8 + (src.getD (78 + 8 * i + 3) 0).toNat := by
  obtain ⟨hf2, -, hflags, hver, hnum⟩ := readHeader_opened src (by omega)
  rw [qFromBigEndian_two] at hflags hver hnum
  simp only [Nat.reduceAdd] at hflags hver hnum
  have hres0 : testFlag (readHeader (QFile.opened src)).1.flags HeaderFlag.Resource = false := by
    rw [hflags]; exact testFlag_resource_of_and_eq_zero _ hflag
  have hrun : QPalmDBPrivate.ofFile (QFile.opened src) =
      loadRecordsEntries
        { QPalmDBPrivate.init with
          header := (readHeader (QFile.opened src)).1,
          file := some (readHeader (QFile.opened src)).2 }
        { bytes := src, pos := 78, readable := true } := by
    unfold QPalmDBPrivate.ofFile
    rw [load_records _ (QFile.opened src) rfl rfl
      (by rw [load_header _ (QFile.opened src) rfl rfl]; exact hres0), hf2]
    rfl
  rw [hrun]
  refine ⟨rfl, by rw [hf2], ?_, ?_, ?_, ?_⟩
  · rw [numRecords, loadRecordsEntries_header]
    simp only [hnum, hn]
  · rw [loadRecordsEntries_header]
    exact hver
  · rw [loadRecordsEntries_length]
    simp only [QPalmDBPrivate.init, List.length_nil, Nat.zero_add, hnum, hn]
  · intro i hi
    have hlt : i < (loadRecordsEntries
        { QPalmDBPrivate.init with
          header := (readHeader (QFile.opened src)).1,
          file := some (readHeader (QFile.opened src)).2 }
        { bytes := src, pos := 78, readable := true }).2.recordsEntries.length := by
      rw [loadRecordsEntries_length]
      simp only [QPalmDBPrivate.init, List.length_nil, Nat.zero_add, hnum]
      omega
    obtain ⟨e, he⟩ : ∃ e, (loadRecordsEntries
        { QPalmDBPrivate.init with
          header := (readHeader (QFile.opened src)).1,
          file := some (readHeader (QFile.opened src)).2 }
        { bytes := src, pos := 78, readable := true }).2.recordsEntries[i]? = some e :=
      ⟨_, List.getElem?_eq_getElem hlt⟩
    refine ⟨e, he, ?_⟩
    rw [← qFromBigEndian_four]
    exact loadRecordsEntries_offset _ src 78 true rfl (by simp only [hnum]; omega) i e he

/-- C6, on the example: `testDBSource` has 110 bytes, `n = 2` and a clear Resource bit; its
version is 1 and its entry offsets are 94 and 100. -/
theorem load_decodes_header_and_offsets_witness :
    ((QPalmDBPrivate.ofFile (QFile.opened testDBSource)).1 = true ∧
    (readHeader (QFile.opened testDBSource)).2.pos = 78 ∧
    numRecords (QPalmDBPrivate.ofFile (QFile.opened testDBSource)).2 = ((2 : Nat) : Int) ∧
    (QPalmDBPrivate.ofFile (QFile.opened testDBSource)).2.header.version =
      (testDBSource.getD 34 0).toNat * 256 + (testDBSource.getD 35 0).toNat ∧
    (QPalmDBPrivate.ofFile (QFile.opened testDBSource)).2.recordsEntries.length = 2 ∧
    ∀ i : Nat, i < 2 →
      ∃ e : PDBRecordEntry,
        (QPalmDBPrivate.ofFile (QFile.opened testDBSource)).2.recordsEntries[i]? = some e ∧
        e.offset =
          (testDBSource.getD (78 + 8 * i) 0).toNat * 2 ^ 24 +
            (testDBSource.getD (78 + 8 * i + 1) 0).toNat * 2 ^ 16 +
            (testDBSource.getD (78 + 8 * i + 2) 0).toNat * 2 ^ 8 +
            (testDBSource.getD (78 + 8 * i + 3) 0).toNat) ∧
    testDB.header.version = 1 ∧
    testDB.recordsEntries.map PDBRecordEntry.offset = [94, 100] :=
  ⟨load_decodes_header_and_offsets testDBSource 2 (by decide) (by decide) (by decide),
    by decide, by decide⟩

set_option maxRecDepth 4000 in
theorem ofNat_ne_nul : ∀ n : Nat, n < 256 → n ≠ 0 → Char.ofNat n ≠ Char.ofNat 0 := by
  decide

theorem latin1_ne_nul (b : UInt8) (h : b ≠ 0) : latin1 b ≠ Char.ofNat 0 := by
  unfold latin1
  apply ofNat_ne_nul _ (UInt8.toNat_lt_size b)
  intro h0
  exact h (UInt8.toNat.inj (by rw [h0, UInt8.toNat_zero]))

/-- The bytes before the first NUL are the first `k` bytes, when `k` is the index of the
first NUL or the length of the list. -/
theorem takeWhile_eq_take (l : List UInt8) (k : Nat) (hk : k ≤ l.length)
    (hnz : ∀ j : Nat, j < k → l.getD j 0 ≠ 0) (hz : k = l.length ∨ l.getD k 0 = 0) :
    l.takeWhile (fun b => b != 0) = l.take k := by
  induction l generalizing k with
  | nil => simp
  | cons a l ih =>
    cases k with
    | zero =>
      have ha : a = 0 := by
        rcases hz with hz | hz
        · simp at hz
        · simpa using hz
      simp [ha]
    | succ k =>
      have ha : a ≠ 0 := by simpa using hnz 0 (by omega)
      have := ih k (by simpa using hk) (fun j hj => by simpa using hnz (j + 1) (by omega))
        (by simpa using hz)
      simp [ha, this]

theorem getD_take_of_lt (src : List UInt8) (n j : Nat) (h : j < n) :
    (src.take n).getD j 0 = src.getD j 0 := by
  simp [List.getD_eq_getElem?_getD, List.getElem?_take_of_lt h]

/-! ## The database name (C7) -/

/-- C7: for a source of at least 78 bytes, with `k` the index of the first NUL byte among
the first 32 bytes, or 32 if there is none, `name ()` after the load is the Latin-1
decoding of the source bytes `[0, k)`; it has `k ≤ 32` characters and no NUL character. -/
theorem name_decodes_before_first_nul (src : List UInt8) (hlen : 78 ≤ src.length) (k : Nat)
    (hk : k ≤ 32) (hnz : ∀ j : Nat, j < k → src.getD j 0 ≠ 0)
    (hz : k = 32 ∨ src.getD k 0 = 0) :
    name (QPalmDBPrivate.ofFile (QFile.opened src)).2 = (src.take k).map latin1 ∧
    (name (QPalmDBPrivate.ofFile (QFile.opened src)).2).length = k ∧
    (name (QPalmDBPrivate.ofFile (QFile.opened src)).2).length ≤ 32 ∧
    Char.ofNat 0 ∉ name (QPalmDBPrivate.ofFile (QFile.opened src)).2 := by
  have hname : name (QPalmDBPrivate.ofFile (QFile.opened src)).2 = (src.take k).map latin1 := by
    unfold name QPalmDBPrivate.ofFile
    rw [load_header _ (QFile.opened src) rfl rfl, (readHeader_opened src hlen).2.1, fromLatin1]
    have h32 : (src.take 32).length = 32 := by rw [List.length_take]; omega
    rw [takeWhile_eq_take (src.take 32) k (by omega)
      (fun j hj => by rw [getD_take_of_lt src 32 j (by omega)]; exact hnz j hj)
      (by
        rcases hz with hz | hz
        · left; omega
        · by_cases hk32 : k = 32
          · left; omega
          · right; rw [getD_take_of_lt src 32 k (by omega)]; exact hz),
      List.take_take, Nat.min_eq_left hk]
  rw [hname]
  have hlen_k : ((src.take k).map latin1).length = k := by
    rw [List.length_map, List.length_take]; omega
  refine ⟨rfl, hlen_k, by omega, ?_⟩
  intro hmem
  obtain ⟨b, hb, hbc⟩ := List.mem_map.mp hmem
  obtain ⟨j, hj, hbj⟩ := List.getElem_of_mem hb
  have hjk : j < k := by rw [List.length_take] at hj; omega
  have hjs : j < src.length := by omega
  have hne := hnz j hjk
  rw [List.getD_eq_getElem _ _ hjs] at hne
  rw [List.getElem_take] at hbj
  rw [hbj] at hne
  exact latin1_ne_nul b hne hbc

/-- C7, on the example: the first NUL of `testDBSource` is at index 6 and the name is
`TestDB`. -/
theorem name_decodes_before_first_nul_witness :
    (name (QPalmDBPrivate.ofFile (QFile.opened testDBSource)).2 =
      (testDBSource.take 6).map latin1 ∧
    (name (QPalmDBPrivate.ofFile (QFile.opened testDBSource)).2).length = 6 ∧
    (name (QPalmDBPrivate.ofFile (QFile.opened testDBSource)).2).length ≤ 32 ∧
    Char.ofNat 0 ∉ name (QPalmDBPrivate.ofFile (QFile.opened testDBSource)).2) ∧
    name testDB = [ 'T', 'e', 's', 't', 'D', 'B'] :=
  ⟨name_decodes_before_first_nul testDBSource (by decide) 6 (by decide) (by decide)
    (by decide), by decide⟩

/-! ## Attribute byte and unique ID (C8) -/

/-- C8, the failing input: entry 0 of `testDBSource` has the bytes `40 12 34 56` after its
offset field, the word `w = 0x40123456` with `w >> 24 = 0x40` and `w & 0xFFFFFF = 0x123456`;
the code decodes only the first two bytes, as a `quint16`, so the attribute byte is 0 and the
unique ID is `0x4012`. -/
theorem attr_and_uniqueID_from_u16 :
    (testDBSource.drop (78 + 8 * 0 + 4)).take 4 = [0x40, 0x12, 0x34, 0x56] ∧
    qFromBigEndian 4 [0x40, 0x12, 0x34, 0x56] >>> 24 = 0x40 ∧
    qFromBigEndian 4 [0x40, 0x12, 0x34, 0x56] &&& 0xFFFFFF = 0x123456 ∧
    testDB.recordsEntries.map (fun e => (e.attr, e.uniqueID)) = [(0, 0x4012), (0, 0)] := by
  decide

/-! ## Resource entries (C9) -/

/-- C9, the failing input: `resourceSource` has the Resource flag and one entry, on disk
type `0x41424344`, id 2, offset 88; the load reads no byte after the header and the decoded
entry has type 1, id 1 and offset 1. -/
theorem resource_entry_not_read :
    (QPalmDBPrivate.ofFile (QFile.opened resourceSource)).1 = true ∧
    testFlag (QPalmDBPrivate.ofFile (QFile.opened resourceSource)).2.header.flags
      HeaderFlag.Resource = true ∧
    numRecords (QPalmDBPrivate.ofFile (QFile.opened resourceSource)).2 = 1 ∧
    qFromBigEndian 4 ((resourceSource.drop 78).take 4) = 0x41424344 ∧
    qFromBigEndian 2 ((resourceSource.drop 82).take 2) = 2 ∧
    qFromBigEndian 4 ((resourceSource.drop 84).take 4) = 88 ∧
    (QPalmDBPrivate.ofFile (QFile.opened resourceSource)).2.file.map QFile.pos = some 78 ∧
    (QPalmDBPrivate.ofFile (QFile.opened resourceSource)).2.resourcesEntries =
      [{ type := 1, id := 1, offset := 1, length := 91 }] := by
  decide

/-! ## Palm-epoch timestamps (C10) -/

/-- C10, the failing input: the code adds `2082844886` to every raw timestamp; for the raw
value 2082844800, which is 1970-01-01T00:00:00Z and Unix second 0 by subtraction of
`2082844800`, it yields Unix second 4165689686. -/
theorem palm_epoch_conversion_adds :
    (∀ src : QByteArray, qDateTimeFromPalmEpochBigEndian src =
      some ((qFromBigEndian 4 src : Int) + 2082844886)) ∧
    qFromBigEndian 4 unixEpochAsPalmBytes = 2082844800 ∧
    qDateTimeFromPalmEpochBigEndian unixEpochAsPalmBytes = some 4165689686 ∧
    qDateTimeFromPalmEpochBigEndian unixEpochAsPalmBytes ≠
      some ((qFromBigEndian 4 unixEpochAsPalmBytes : Int) - 2082844800) := by
  refine ⟨?_, by decide, by decide, by decide⟩
  intro src
  have h := qFromBigEndian_lt 4 src
  unfold qDateTimeFromPalmEpochBigEndian fromSecsSinceEpoch toQint64
  simp only [Nat.mod_mod]
  have h1 : (qFromBigEndian 4 src + 2082844886) % 2 ^ 64 = qFromBigEndian 4 src + 2082844886 := by
    omega
  rw [h1, if_pos (by omega)]
  simp

/-! ## In-bounds field reads (C11, C12, C13) -/

/-- The decoded value as the sum of its bytes, most significant first. -/
theorem qFromBigEndian_eq_sum (w : Nat) (l : QByteArray) :
    qFromBigEndian w l = ∑ k ∈ Finset.range w, (l.getD k 0).toNat * 256 ^ (w - 1 - k) := by
  induction w generalizing l with
  | zero => simp [qFromBigEndian]
  | succ w ih =>
    rw [qFromBigEndian, ih, Finset.sum_range_succ', Nat.add_comm]
    congr 1
    · apply Finset.sum_congr rfl
      intro k _
      have h1 : l.tail.getD k 0 = l.getD (k + 1) 0 := by
        cases l <;> simp
      have h2 : w + 1 - 1 - (k + 1) = w - 1 - k := by omega
      rw [h1, h2]
    · cases l <;> simp

theorem getD_drop (l : QByteArray) (p j : Nat) : (l.drop p).getD j 0 = l.getD (p + j) 0 := by
  simp [List.getD_eq_getElem?_getD, List.getElem?_drop]

theorem currentCursor_of_nat (data : QByteArray) (p : Nat) :
    ({ data := data, offset := (p : Int) } : QPalmDBRecord).currentCursor = data.drop p := by
  simp [QPalmDBRecord.currentCursor]

/-- C11: for a cursor at position `p` over a buffer with at least `w = sizeof (T)` bytes
remaining, `integerField<T> ()` returns the unsigned big-endian value of the bytes
`[p, p + w)`, the sum of `byte[p + k] * 256 ^ (w - 1 - k)`, and leaves the cursor at `p + w`,
which is inside the buffer. -/
theorem integerField_in_bounds (data : QByteArray) (p w : Nat) (h : p + w ≤ data.length) :
    ({ data := data, offset := (p : Int) } : QPalmDBRecord).integerField w =
      (∑ k ∈ Finset.range w, (data.getD (p + k) 0).toNat * 256 ^ (w - 1 - k),
        { data := data, offset := ((p + w : Nat) : Int) }) ∧
    ((data.drop p).take w).length = w := by
  refine ⟨?_, by rw [List.length_take, List.length_drop]; omega⟩
  simp only [QPalmDBRecord.integerField, QPalmDBRecord.rawField, QPalmDBRecord.src,
    currentCursor_of_nat, qFromBigEndian_eq_sum, getD_drop, Nat.cast_add]

/-- C11, on the example: `integerField<u16>` on the bytes `01 02` returns 258 and leaves the
cursor at 2. -/
theorem integerField_in_bounds_witness :
    (({ data := [0x01, 0x02], offset := ((0 : Nat) : Int) } : QPalmDBRecord).integerField 2 =
      (∑ k ∈ Finset.range 2, (([0x01, 0x02] : QByteArray).getD (0 + k) 0).toNat * 256 ^ (2 - 1 - k),
        { data := [0x01, 0x02], offset := ((0 + 2 : Nat) : Int) }) ∧
    ((([0x01, 0x02] : QByteArray).drop 0).take 2).length = 2) ∧
    (QPalmDBRecord.ofData [0x01, 0x02]).integerField 2 =
      (258, { data := [0x01, 0x02], offset := 2 }) :=
  ⟨integerField_in_bounds [0x01, 0x02] 0 2 (by decide), by decide⟩

/-- C12: for a cursor at position `p` over bytes whose first NUL at an index `≥ p` is at
index `q`, `stringField ()` returns the Latin-1 decoding of the bytes `[p, q)` and leaves
the cursor at `q + 1`. -/
theorem stringField_to_first_nul (data : QByteArray) (p q : Nat) (hpq : p ≤ q)
    (hq : q < data.length) (hnul : data.getD q 0 = 0)
    (hmin : ∀ j : Nat, p ≤ j → j < q → data.getD j 0 ≠ 0) :
    ({ data := data, offset := (p : Int) } : QPalmDBRecord).stringField =
      (((data.drop p).take (q - p)).map latin1,
        { data := data, offset := ((q + 1 : Nat) : Int) }) := by
  have htw : (data.drop p).takeWhile (fun b => b != 0) = (data.drop p).take (q - p) := by
    apply takeWhile_eq_take
    · rw [List.length_drop]; omega
    · intro j hj
      rw [getD_drop]
      exact hmin (p + j) (by omega) (by omega)
    · right
      rw [getD_drop, show p + (q - p) = q by omega]
      exact hnul
  simp only [QPalmDBRecord.stringField, QPalmDBRecord.skip, fromLatin1Ptr, currentCursor_of_nat,
    htw, List.length_map, List.length_take, List.length_drop]
  congr 2
  omega

/-- C12, on the example: on the bytes `AB\0CD` from position 0, `stringField ()` returns `AB`
with the cursor at 3, and `byteArrayField (2)` then returns `CD`. -/
theorem stringField_to_first_nul_witness :
    ({ data := [65, 66, 0, 67, 68], offset := ((0 : Nat) : Int) } : QPalmDBRecord).stringField =
      (((([65, 66, 0, 67, 68] : QByteArray).drop 0).take (2 - 0)).map latin1,
        { data := [65, 66, 0, 67, 68], offset := ((2 + 1 : Nat) : Int) }) ∧
    (QPalmDBRecord.ofData [65, 66, 0, 67, 68]).stringField =
      ([ 'A', 'B'], { data := [65, 66, 0, 67, 68], offset := 3 }) ∧
    ((QPalmDBRecord.ofData [65, 66, 0, 67, 68]).stringField.2.byteArrayField 2).1 = [67, 68] :=
  ⟨stringField_to_first_nul [65, 66, 0, 67, 68] 0 2 (by decide) (by decide) (by decide)
    (by decide), by decide, by decide⟩

theorem range_map_getD_eq_take (l : QByteArray) (n : Nat) (h : n ≤ l.length) :
    (List.range n).map (fun k => l.getD k 0) = l.take n := by
  apply List.ext_getElem
  · simp; omega
  · intro i h1 h2
    simp only [List.length_map, List.length_range] at h1
    simp [List.getD_eq_getElem?_getD, List.getElem?_eq_getElem (show i < l.length by omega)]

/-- C13: for a cursor at position `p` and a size `≥ 0` with `p + size` at most the buffer
length, `byteArrayField (size)` returns a copy of the bytes `[p, p + size)` and leaves the
cursor at `p + size`; `byteArrayField (0)` returns the empty array and leaves the cursor
where it was. -/
theorem byteArrayField_in_bounds (data : QByteArray) (p size : Nat)
    (h : p + size ≤ data.length) :
    ({ data := data, offset := (p : Int) } : QPalmDBRecord).byteArrayField (size : Int) =
      ((data.drop p).take size, { data := data, offset := ((p + size : Nat) : Int) }) ∧
    ((data.drop p).take size).length = size ∧
    ({ data := data, offset := (p : Int) } : QPalmDBRecord).byteArrayField 0 =
      ([], { data := data, offset := (p : Int) }) := by
  refine ⟨?_, by rw [List.length_take, List.length_drop]; omega, ?_⟩
  · simp only [QPalmDBRecord.byteArrayField, QPalmDBRecord.src, currentCursor_of_nat,
      byteArrayFromPtr]
    rw [if_neg (by omega), Int.toNat_ofNat,
      range_map_getD_eq_take _ _ (by rw [List.length_drop]; omega)]
    simp
  · simp [QPalmDBRecord.byteArrayField, QPalmDBRecord.src, byteArrayFromPtr]

/-- C13, on the example: at position 3 of `AB\0CD`, `byteArrayField (2)` returns `CD` and
leaves the cursor at 5. -/
theorem byteArrayField_in_bounds_witness :
    (({ data := [65, 66, 0, 67, 68], offset := ((3 : Nat) : Int) } : QPalmDBRecord).byteArrayField
        ((2 : Nat) : Int) =
      ((([65, 66, 0, 67, 68] : QByteArray).drop 3).take 2,
        { data := [65, 66, 0, 67, 68], offset := ((3 + 2 : Nat) : Int) }) ∧
    ((([65, 66, 0, 67, 68] : QByteArray).drop 3).take 2).length = 2 ∧
    ({ data := [65, 66, 0, 67, 68], offset := ((3 : Nat) : Int) } : QPalmDBRecord).byteArrayField 0 =
      ([], { data := [65, 66, 0, 67, 68], offset := ((3 : Nat) : Int) })) ∧
    (({ data := [65, 66, 0, 67, 68], offset := 3 } : QPalmDBRecord).byteArrayField 2).1 =
      [67, 68] :=
  ⟨byteArrayField_in_bounds [65, 66, 0, 67, 68] 3 2 (by decide), by decide⟩

/-! ## Reads past the end of the buffer (C14, C15) -/

/-- C14, counterexample: on the one-byte buffer `01`, `integerField<u16> ()` returns 256 (the
byte and the array's NUL terminator) and leaves the cursor at 2; on the one-byte buffer `A`,
`byteArrayField (2)` returns two bytes and leaves the cursor at 2. -/
theorem field_reads_past_end :
    (QPalmDBRecord.ofData [0x01]).integerField 2 = (256, { data := [0x01], offset := 2 }) ∧
    (QPalmDBRecord.ofData [65]).byteArrayField 2 = ([65, 0], { data := [65], offset := 2 }) := by
  decide

theorem range_map_getD_succ_length (l : QByteArray) :
    (List.range (l.length + 1)).map (fun k => l.getD k 0) = l ++ [0] := by
  rw [List.range_succ, List.map_append, range_map_getD_eq_take l l.length (Nat.le_refl _),
    List.take_length]
  simp

/-- C14, amended: for a cursor at position `p ≤ L` over a buffer of length `L`, with
`L + 1 < 2 ^ 31`, a read that lacks exactly one byte does not fail.  `integerField<T> ()` with
`p + sizeof (T) = L + 1` returns the big-endian value of the bytes `[p, L)` followed by a zero
byte (the array's NUL terminator), and `byteArrayField (size)` with `p + size = L + 1` returns
the bytes `[p, L)` followed by a zero byte; both leave the cursor at `L + 1`, past the end
of the buffer. -/
theorem field_reads_one_past_end (data : QByteArray) (p w size : Nat) (hp : p ≤ data.length)
    (hw : p + w = data.length + 1) (hsize : p + size = data.length + 1)
    (hL : data.length + 1 < 2 ^ 31) :
    ({ data := data, offset := (p : Int) } : QPalmDBRecord).integerField w =
      (∑ k ∈ Finset.range (w - 1), (data.getD (p + k) 0).toNat * 256 ^ (w - 1 - k),
        { data := data, offset := ((data.length + 1 : Nat) : Int) }) ∧
    ({ data := data, offset := (p : Int) } : QPalmDBRecord).byteArrayField (size : Int) =
      (data.drop p ++ [0], { data := data, offset := ((data.length + 1 : Nat) : Int) }) ∧
    (data.length : Int) < ((data.length + 1 : Nat) : Int) ∧
    ((data.length + 1 : Nat) : Int) < 2 ^ 31 := by
  refine ⟨?_, ?_, by omega, by omega⟩
  · obtain ⟨v, hv⟩ : ∃ v, w = v + 1 := ⟨w - 1, by omega⟩
    subst hv
    have hterm : data.getD (p + v) 0 = 0 := by
      rw [List.getD_eq_default]
      omega
    simp only [QPalmDBRecord.integerField, QPalmDBRecord.rawField, QPalmDBRecord.src,
      currentCursor_of_nat, qFromBigEndian_eq_sum, getD_drop, Nat.add_sub_cancel]
    rw [Finset.sum_range_succ, hterm]
    simp only [UInt8.toNat_zero, Nat.zero_mul, Nat.add_zero, Prod.mk.injEq, true_and]
    congr 1
    omega
  · have hsz : size = (data.drop p).length + 1 := by
      rw [List.length_drop]; omega
    simp only [QPalmDBRecord.byteArrayField, QPalmDBRecord.src, currentCursor_of_nat,
      byteArrayFromPtr]
    rw [if_neg (by omega), Int.toNat_ofNat, hsz, range_map_getD_succ_length]
    simp only [Prod.mk.injEq, true_and]
    congr 1
    rw [List.length_drop]
    omega

/-- C14, amended, on the one-byte buffer `01` with two-byte reads at position 0:
`integerField<u16> ()` returns `1 * 256` and `byteArrayField (2)` returns `01 00`. -/
theorem field_reads_one_past_end_witness :
    (({ data := [0x01], offset := ((0 : Nat) : Int) } : QPalmDBRecord).integerField 2 =
      (∑ k ∈ Finset.range (2 - 1), (([0x01] : QByteArray).getD (0 + k) 0).toNat * 256 ^ (2 - 1 - k),
        { data := [0x01], offset := ((([0x01] : QByteArray).length + 1 : Nat) : Int) }) ∧
    ({ data := [0x01], offset := ((0 : Nat) : Int) } : QPalmDBRecord).byteArrayField
        ((2 : Nat) : Int) =
      (([0x01] : QByteArray).drop 0 ++ [0],
        { data := [0x01], offset := ((([0x01] : QByteArray).length + 1 : Nat) : Int) }) ∧
    ((([0x01] : QByteArray).length : Nat) : Int) < ((([0x01] : QByteArray).length + 1 : Nat) : Int) ∧
    ((([0x01] : QByteArray).length + 1 : Nat) : Int) < 2 ^ 31) ∧
    ((QPalmDBRecord.ofData [0x01]).integerField 2).1 = 256 ∧
    ((QPalmDBRecord.ofData [0x01]).byteArrayField 2).1 = [0x01, 0] :=
  ⟨field_reads_one_past_end [0x01] 0 2 2 (by decide) (by decide) (by decide) (by decide),
    by decide, by decide⟩

/-- C15, counterexample: on the bytes `AB`, which hold no NUL, `stringField ()` returns the
string `AB` and leaves the cursor at 3. -/
theorem stringField_without_nul :
    (QPalmDBRecord.ofData [65, 66]).stringField =
      ([ 'A', 'B'], { data := [65, 66], offset := 3 }) := by
  decide

theorem takeWhile_eq_self (l : QByteArray) (h : ∀ j : Nat, j < l.length → l.getD j 0 ≠ 0) :
    l.takeWhile (fun b => b != 0) = l := by
  have := takeWhile_eq_take l l.length (Nat.le_refl _) h (Or.inl rfl)
  rw [this, List.take_length]

/-- C15, amended: for a cursor at position `p ≤ L` over a buffer of length `L` with no NUL
byte at any index `≥ p`, `stringField ()` does not fail: it stops at the array's NUL
terminator, returns the Latin-1 decoding of all the remaining bytes `[p, L)` and leaves the
cursor at `L + 1`. -/
theorem stringField_returns_remaining (data : QByteArray) (p : Nat) (hp : p ≤ data.length)
    (hno : ∀ j : Nat, p ≤ j → j < data.length → data.getD j 0 ≠ 0) :
    ({ data := data, offset := (p : Int) } : QPalmDBRecord).stringField =
      ((data.drop p).map latin1,
        { data := data, offset := ((data.length + 1 : Nat) : Int) }) := by
  have htw : (data.drop p).takeWhile (fun b => b != 0) = data.drop p := by
    apply takeWhile_eq_self
    intro j hj
    rw [List.length_drop] at hj
    rw [getD_drop]
    exact hno (p + j) (by omega) (by omega)
  simp only [QPalmDBRecord.stringField, QPalmDBRecord.skip, fromLatin1Ptr, currentCursor_of_nat,
    htw, List.length_map, List.length_drop]
  congr 2
  omega

/-- C15, amended, on the bytes `AB` from position 0. -/
theorem stringField_returns_remaining_witness :
    ({ data := [65, 66], offset := ((0 : Nat) : Int) } : QPalmDBRecord).stringField =
      ((([65, 66] : QByteArray).drop 0).map latin1,
        { data := [65, 66], offset := ((([65, 66] : QByteArray).length + 1 : Nat) : Int) }) :=
  stringField_returns_remaining [65, 66] 0 (by decide) (by decide)

/-! ## The cursor over a sequence of calls (C16, C17) -/

/-- C16, counterexample: after the single call `integerField<u16> ()` on a fresh cursor over
the one-byte buffer `01`, the cursor is at 2, beyond the buffer length 1. -/
theorem cursor_exceeds_length :
    FieldCall.run [FieldCall.integerField 2] (QPalmDBRecord.ofData [0x01]) =
      [(FieldValue.integer 256, 2)] ∧
    ¬ ((2 : Int) ≤ ((QPalmDBRecord.ofData [0x01]).data.length : Int)) := by
  decide

theorem FieldCall.apply_data (c : FieldCall) (r : QPalmDBRecord) :
    (c.apply r).2.data = r.data := by
  cases c <;> rfl

theorem FieldCall.apply_offset_nonneg (c : FieldCall) (r : QPalmDBRecord) (h : 0 ≤ r.offset) :
    0 ≤ (c.apply r).2.offset := by
  cases c with
  | integerField w =>
    show 0 ≤ r.offset + (w : Int)
    omega
  | byteArrayField size =>
    show 0 ≤ r.offset + (size : Int)
    omega
  | stringField =>
    show 0 ≤ r.offset + (((fromLatin1Ptr r.currentCursor).length : Int) + 1)
    omega
  | rewind => exact Int.le_refl 0

theorem takeWhile_length_lt_of_contains (l : QByteArray) (h : l.contains 0 = true) :
    (l.takeWhile (fun b => b != 0)).length < l.length := by
  induction l with
  | nil => simp at h
  | cons a l ih =>
    by_cases ha : a = 0
    · simp [ha]
    · have h1 : l.contains 0 = true := by
        simp only [List.contains_cons, Bool.or_eq_true, beq_iff_eq] at h
        rcases h with h | h
        · exact absurd h.symm ha
        · exact h
      have := ih h1
      simp [ha]
      omega

theorem FieldCall.apply_offset_le (c : FieldCall) (r : QPalmDBRecord) (h0 : 0 ≤ r.offset)
    (hb : c.inBounds r = true) : (c.apply r).2.offset ≤ (r.data.length : Int) := by
  cases c with
  | integerField w =>
    show r.offset + (w : Int) ≤ _
    simpa [FieldCall.inBounds] using hb
  | byteArrayField size =>
    show r.offset + (size : Int) ≤ _
    simpa [FieldCall.inBounds] using hb
  | stringField =>
    show r.offset + (((fromLatin1Ptr r.currentCursor).length : Int) + 1) ≤ _
    have hlt := takeWhile_length_lt_of_contains _ hb
    simp only [fromLatin1Ptr, QPalmDBRecord.currentCursor, if_pos h0, List.length_map]
    rw [List.length_drop] at hlt
    omega
  | rewind =>
    show (0 : Int) ≤ _
    omega

/-- Along a sequence of calls that all have the bytes they need, the cursor stays inside the
buffer. -/
theorem FieldCall.run_bounds (calls : List FieldCall) (r : QPalmDBRecord) (h0 : 0 ≤ r.offset)
    (hb : FieldCall.allInBounds calls r = true)
    (x : FieldValue × Int) (hx : x ∈ FieldCall.run calls r) :
    0 ≤ x.2 ∧ x.2 ≤ (r.data.length : Int) := by
  induction calls generalizing r with
  | nil => simp [FieldCall.run] at hx
  | cons c cs ih =>
    rw [FieldCall.allInBounds, Bool.and_eq_true] at hb
    rw [FieldCall.run, List.mem_cons] at hx
    rcases hx with hx | hx
    · rw [hx]
      exact ⟨FieldCall.apply_offset_nonneg c r h0, FieldCall.apply_offset_le c r h0 hb.1⟩
    · have := ih _ (FieldCall.apply_offset_nonneg c r h0) hb.2 hx
      rw [FieldCall.apply_data] at this
      exact this

/-- C16, amended: for every record cursor at a position `≥ 0` over a buffer shorter than
`2 ^ 31` bytes, and every finite sequence of `integerField`, `byteArrayField` (size `≥ 0`),
`stringField` and `rewind` calls in which every call has the bytes it needs at its turn
(`sizeof (T)` or `size` bytes remain, a NUL byte lies at or after the cursor), the cursor
position `p` satisfies `0 ≤ p ≤ buffer length` after each call, and so is a `qint32` value. -/
theorem cursor_bounds (r : QPalmDBRecord) (calls : List FieldCall) (h0 : 0 ≤ r.offset)
    (hL : r.data.length < 2 ^ 31) (hb : FieldCall.allInBounds calls r = true) :
    ∀ x ∈ FieldCall.run calls r, 0 ≤ x.2 ∧ x.2 ≤ (r.data.length : Int) ∧ x.2 < 2 ^ 31 := by
  intro x hx
  obtain ⟨h1, h2⟩ := FieldCall.run_bounds calls r h0 hb x hx
  exact ⟨h1, h2, by omega⟩

/-- C16, amended, on the bytes `AB\0CD` with the calls `stringField`, `byteArrayField (2)`,
`rewind`, `integerField<u16>`: every call is in bounds and the cursor goes 3, 5, 0, 2. -/
theorem cursor_bounds_witness :
    (∀ x ∈ FieldCall.run
      [FieldCall.stringField, FieldCall.byteArrayField 2, FieldCall.rewind,
        FieldCall.integerField 2] (QPalmDBRecord.ofData [65, 66, 0, 67, 68]),
      0 ≤ x.2 ∧ x.2 ≤ ((QPalmDBRecord.ofData [65, 66, 0, 67, 68]).data.length : Int) ∧
        x.2 < 2 ^ 31) ∧
    (FieldCall.run
      [FieldCall.stringField, FieldCall.byteArrayField 2, FieldCall.rewind,
        FieldCall.integerField 2] (QPalmDBRecord.ofData [65, 66, 0, 67, 68])).map Prod.snd =
      [3, 5, 0, 2] :=
  ⟨cursor_bounds (QPalmDBRecord.ofData [65, 66, 0, 67, 68])
    [FieldCall.stringField, FieldCall.byteArrayField 2, FieldCall.rewind,
      FieldCall.integerField 2] (by decide) (by decide) (by decide), by decide⟩

/-- C17: `rewind ()` sets the cursor to 0 from any state and leaves the bytes unchanged; two
`rewind ()` calls equal one; the cursor after `rewind ()` is the cursor freshly constructed
over the same bytes, so every sequence of field reads returns on it the same values and
cursor positions as on the fresh cursor. -/
theorem rewind_is_fresh_cursor (r : QPalmDBRecord) (calls : List FieldCall) :
    r.rewind.offset = 0 ∧ r.rewind.data = r.data ∧ r.rewind.rewind = r.rewind ∧
    r.rewind = QPalmDBRecord.ofData r.data ∧
    FieldCall.run calls r.rewind = FieldCall.run calls (QPalmDBRecord.ofData r.data) :=
  ⟨rfl, rfl, rfl, rfl, rfl⟩

/-! ## A second load on the same object (C18) -/

/-- C18, the failing input: an object built over `testDBSource` (two records) on which
`load ("b")` is then called (one record at offset 86, 90 bytes).  Both loads succeed;
afterwards the header says one record, the entry list holds three entries, the first two
are those of `testDBSource`, and the first has got the length `(90 - 94) mod 2 ^ 32`.  A fresh
object loaded from `b` has the single entry of offset 86 and length 4. -/
theorem second_load_appends_entries :
    (QPalmDBPrivate.ofFile (QFile.opened testDBSource)).1 = true ∧
    loadedTwice.1 = true ∧
    testFlag loadedTwice.2.header.flags HeaderFlag.Resource = false ∧
    numRecords loadedTwice.2 = 1 ∧
    loadedTwice.2.recordsEntries.length = 3 ∧
    loadedTwice.2.recordsEntries.map PDBRecordEntry.offset = [94, 100, 86] ∧
    (loadedTwice.2.recordsEntries.take 2).map PDBRecordEntry.length = [4294967292, 10] ∧
    (loadFileName twoFiles QPalmDBPrivate.init [ 'b']).2.recordsEntries.map
      (fun e => (e.offset, e.length)) = [(86, 4)] := by
  decide

/-! ## Records tile the payload (C19) -/

theorem record_of_entry (d : QPalmDBPrivate) (f : QFile) (i : Nat) (e : PDBRecordEntry)
    (hf : d.file = some f) (he : d.recordsEntries[i]? = some e) :
    record d (i : Int) =
      .ok ({ data := (f.bytes.drop e.offset).take e.length, offset := 0 },
        { d with file := some ((f.seek e.offset).read e.length).2 }) := by
  have hi := (List.getElem?_eq_some.mp he).1
  unfold record
  rw [if_neg (by omega), if_neg (by omega)]
  simp only [Int.toNat_ofNat, he, hf, QFile.read, QFile.seek, QPalmDBRecord.ofData]

/-- Reading the first `k` records in order returns the slices of the first `k` entries and
changes nothing but the position of the file. -/
theorem recordsUpTo_eq (d : QPalmDBPrivate) (f : QFile) (hf : d.file = some f) (k : Nat)
    (hk : k ≤ d.recordsEntries.length) :
    ∃ d' f', recordsUpTo k d =
        .ok ((d.recordsEntries.take k).map
          (fun e => (f.bytes.drop e.offset).take e.length), d') ∧
      d'.recordsEntries = d.recordsEntries ∧ d'.file = some f' ∧ f'.bytes = f.bytes := by
  induction k with
  | zero => exact ⟨d, f, by simp [recordsUpTo], rfl, hf, rfl⟩
  | succ k ih =>
    obtain ⟨d1, f1, hrun, hes, hf1, hb1⟩ := ih (by omega)
    obtain ⟨e, he⟩ : ∃ e, d.recordsEntries[k]? = some e :=
      ⟨_, List.getElem?_eq_getElem (by omega)⟩
    have hrec := record_of_entry d1 f1 k e hf1 (by rw [hes]; exact he)
    refine ⟨{ d1 with file := some ((f1.seek e.offset).read e.length).2 },
      ((f1.seek e.offset).read e.length).2, ?_, ?_, rfl, ?_⟩
    · rw [recordsUpTo, hrun]
      simp only [hrec, List.take_succ, he, Option.toList_some, List.map_append, List.map_cons,
        List.map_nil, hb1]
    · exact hes
    · simp only [QFile.read, QFile.seek, hb1]

/-- Slices that follow one another up to the end of the source make up the source from
the first offset on, and their lengths add up to the rest of the source. -/
theorem slices_tile (src : List UInt8) (es : List PDBRecordEntry)
    (hcons : ∀ (i : Nat) (e e' : PDBRecordEntry), es[i]? = some e → es[i + 1]? = some e' →
      e.offset + e.length = e'.offset)
    (hfin : ∀ e : PDBRecordEntry, es.getLast? = some e → e.offset + e.length = src.length)
    (e0 : PDBRecordEntry) (h0 : es.head? = some e0) :
    (es.map (fun e => (src.drop e.offset).take e.length)).flatten = src.drop e0.offset ∧
    e0.offset + (es.map PDBRecordEntry.length).sum = src.length := by
  induction es generalizing e0 with
  | nil => simp at h0
  | cons e rest ih =>
    simp only [List.head?_cons, Option.some.injEq] at h0
    subst h0
    cases rest with
    | nil =>
      have hl := hfin e (by simp)
      constructor
      · simp only [List.map_cons, List.map_nil, List.flatten_cons, List.flatten_nil,
          List.append_nil]
        apply List.take_of_length_le
        rw [List.length_drop]; omega
      · simpa using hl
    | cons e' rest' =>
      have hstep := hcons 0 e e' (by simp) (by simp)
      obtain ⟨ih1, ih2⟩ := ih
        (fun i a a' h1 h2 => hcons (i + 1) a a' (by simpa using h1) (by simpa using h2))
        (fun a ha => hfin a (by simpa using ha)) e' (by simp)
      constructor
      · rw [List.map_cons, List.flatten_cons, ih1, ← hstep, ← List.drop_drop,
          List.take_append_drop]
      · rw [List.map_cons, List.sum_cons]
        omega

/-- C19: for a non-resource database with `n ≥ 1` entries loaded from a source of length
`L < 2 ^ 32` whose offsets are non-decreasing with the last offset at most `L`, the calls
`record (0)`, …, `record (n - 1)` succeed, the concatenation of the bytes they return is the
source from the first entry's offset to its end, and the entry lengths add up to `L` minus
that offset. -/
theorem records_tile_payload (src : List UInt8) (d : QPalmDBPrivate)
    (hload : QPalmDBPrivate.ofFile (QFile.opened src) = (true, d))
    (hres : testFlag d.header.flags HeaderFlag.Resource = false)
    (hn : 1 ≤ d.header.numRecords)
    (hL : src.length < 2 ^ 32)
    (hmono : (d.recordsEntries.map PDBRecordEntry.offset).Pairwise (fun a b => a ≤ b))
    (hlast : ∀ e ∈ d.recordsEntries.getLast?, e.offset ≤ src.length) :
    ∃ (e0 : PDBRecordEntry) (bs : List QByteArray) (d' : QPalmDBPrivate),
      d.recordsEntries[0]? = some e0 ∧
      recordsUpTo d.header.numRecords d = .ok (bs, d') ∧
      bs.length = d.header.numRecords ∧
      bs.flatten = src.drop e0.offset ∧
      ((d.recordsEntries.map PDBRecordEntry.length).sum : Int) =
        (src.length : Int) - (e0.offset : Int) := by
  obtain ⟨-, hlen, ⟨f, hf, hbytes⟩, hcons, hfin, -⟩ :=
    ofFile_exact src d true hload hres hL hmono hlast
  obtain ⟨e0, he0⟩ : ∃ e, d.recordsEntries[0]? = some e :=
    ⟨_, List.getElem?_eq_getElem (by omega)⟩
  obtain ⟨d', f', hrun, -, -, -⟩ := recordsUpTo_eq d f hf d.header.numRecords (by omega)
  rw [← hlen, List.take_length, hbytes] at hrun
  have htile := slices_tile src d.recordsEntries hcons
    (fun e he => hfin e (by rw [← hlen, ← List.getLast?_eq_getElem?]; exact he)) e0
    (by rw [List.head?_eq_getElem?]; exact he0)
  refine ⟨e0, _, d', he0, by rw [← hlen]; exact hrun, ?_, htile.1, ?_⟩
  · rw [List.length_map, hlen]
  · have := htile.2
    omega

/-- C19, on the example: the two records of `testDB` are the bytes `[94, 100)` and
`[100, 110)`; together they are the source from byte 94 on, and `6 + 10 = 110 - 94`. -/
theorem records_tile_payload_witness :
    (∃ (e0 : PDBRecordEntry) (bs : List QByteArray) (d' : QPalmDBPrivate),
      testDB.recordsEntries[0]? = some e0 ∧
      recordsUpTo testDB.header.numRecords testDB = .ok (bs, d') ∧
      bs.length = testDB.header.numRecords ∧
      bs.flatten = testDBSource.drop e0.offset ∧
      ((testDB.recordsEntries.map PDBRecordEntry.length).sum : Int) =
        (testDBSource.length : Int) - (e0.offset : Int)) ∧
    testDB.recordsEntries.map (fun e => (e.offset, e.length)) = [(94, 6), (100, 10)] :=
  ⟨records_tile_payload testDBSource testDB rfl (by decide) (by decide) (by decide) (by decide)
    (by decide), by decide⟩

/-! ## Resource databases (C20) -/

theorem modify_replicate_of_fixed (e : PDBResourceEntry) (g : PDBResourceEntry → PDBResourceEntry)
    (hg : g e = e) (k j : Nat) : (List.replicate k e).modify g j = List.replicate k e := by
  apply List.ext_getElem?
  intro m
  rw [List.getElem?_modify, List.getElem?_replicate]
  split <;> simp [hg]

/-- The loop of `loadResourcesEntries` on an empty list makes `k` copies of the placeholder
entry. -/
theorem loadResourcesEntriesLoop_nil (k : Nat) :
    loadResourcesEntriesLoop k [] =
      List.replicate k { type := 1, id := 1, offset := 1, length := 0 } := by
  induction k with
  | zero => rfl
  | succ k ih =>
    rw [loadResourcesEntriesLoop, ih, loadResourcesEntriesBody]
    simp only
    rw [List.replicate_succ']
    congr 1
    split
    · exact modify_replicate_of_fixed _ _ (by decide) k (k - 1)
    · rfl

theorem load_resources (d : QPalmDBPrivate) (f : QFile) (hf : d.file = some f)
    (hr : f.readable = true)
    (hres : testFlag (load d).2.header.flags HeaderFlag.Resource = true) :
    load d =
      loadResourcesEntries { d with header := (readHeader f).1, file := some (readHeader f).2 }
        (readHeader f).2 := by
  rw [load_header d f hf hr] at hres
  unfold load
  simp only [hf, hr, Bool.not_true, Bool.false_eq_true, if_false, hres, if_true]

/-- C20: for a source whose header has the Resource flag and `numRecords = n > 0`, the load
succeeds with the header decoded from the source, so `numRecords ()` returns `n`; the
record-entry list stays empty and `record (i)` returns an empty record for every `i ≥ 0`,
leaving the object as it was; there are `n` resource entries, each with offset 1, each but
the last with length 0, and the last with length `(source length - 1) mod 2 ^ 32`. -/
theorem resource_database_has_no_records (src : List UInt8) (b : Bool) (d : QPalmDBPrivate)
    (hload : QPalmDBPrivate.ofFile (QFile.opened src) = (b, d))
    (hres : testFlag d.header.flags HeaderFlag.Resource = true)
    (hn : 0 < d.header.numRecords) :
    b = true ∧ d.header = (readHeader (QFile.opened src)).1 ∧ 0 < numRecords d ∧
    d.recordsEntries = [] ∧
    (∀ i : Int, 0 ≤ i →
      record d i = .ok (QPalmDBRecord.ofData [], d) ∧
      (QPalmDBRecord.ofData []).isEmpty = true) ∧
    d.resourcesEntries.length = d.header.numRecords ∧
    (∀ e ∈ d.resourcesEntries, e.offset = 1) ∧
    (∀ i : Nat, i + 1 < d.header.numRecords →
      ∃ e : PDBResourceEntry, d.resourcesEntries[i]? = some e ∧ e.length = 0) ∧
    (∃ e : PDBResourceEntry, d.resourcesEntries[d.header.numRecords - 1]? = some e ∧
      (e.length : Int) = ((src.length : Int) - 1) % 2 ^ 32) := by
  unfold QPalmDBPrivate.ofFile at hload
  have hd : d = (load { QPalmDBPrivate.init with
      file := some (QFile.opened src), ownsFilePtr := false }).2 := by rw [hload]
  have hres' := hres
  rw [hd] at hres'
  have hrun := load_resources _ (QFile.opened src) rfl rfl hres'
  rw [hload] at hrun
  have hhdr : d.header = (readHeader (QFile.opened src)).1 := by
    have := congrArg (fun p => p.2.header) hrun
    exact this
  have hb : b = true := congrArg Prod.fst hrun
  have hrec : d.recordsEntries = [] := congrArg (fun p => p.2.recordsEntries) hrun
  have hrs : d.resourcesEntries =
      (List.replicate d.header.numRecords
        ({ type := 1, id := 1, offset := 1, length := 0 } : PDBResourceEntry)).modify
        (fun pre => { pre with length := toQuint32 ((src.length : Int) - pre.offset) })
        (d.header.numRecords - 1) := by
    have := congrArg (fun p => p.2.resourcesEntries) hrun
    simp only [loadResourcesEntries, ← hhdr, if_pos hn] at this
    rw [this]
    have hnil : QPalmDBPrivate.init.resourcesEntries = [] := rfl
    rw [hnil, loadResourcesEntriesLoop_nil, QFile.size, readHeader_bytes]
    rfl
  have hget : ∀ (i : Nat) (e : PDBResourceEntry), d.resourcesEntries[i]? = some e →
      e.offset = 1 ∧ (i ≠ d.header.numRecords - 1 → e.length = 0) ∧
      (i = d.header.numRecords - 1 → e.length = toQuint32 ((src.length : Int) - 1)) := by
    intro i e he
    rw [hrs, List.getElem?_modify, List.getElem?_replicate] at he
    by_cases hi : i < d.header.numRecords
    · rw [if_pos hi] at he
      simp only [Option.map_eq_map, Option.map_some', Option.some.injEq] at he
      subst he
      by_cases hc : d.header.numRecords - 1 = i
      · rw [if_pos hc]
        exact ⟨rfl, fun h => absurd hc.symm h, fun _ => rfl⟩
      · rw [if_neg hc]
        exact ⟨rfl, fun _ => rfl, fun h => absurd h.symm hc⟩
    · rw [if_neg hi] at he
      simp at he
  have hlen : d.resourcesEntries.length = d.header.numRecords := by
    rw [hrs, List.length_modify, List.length_replicate]
  refine ⟨hb, hhdr, by unfold numRecords; omega, hrec, ?_, hlen, ?_, ?_, ?_⟩
  · intro i hi
    refine ⟨?_, rfl⟩
    apply record_past_end
    rw [hrec]
    simpa using hi
  · intro e he
    obtain ⟨i, hi, hie⟩ := List.getElem_of_mem he
    exact (hget i e (by rw [List.getElem?_eq_getElem hi, hie])).1
  · intro i hi
    obtain ⟨e, he⟩ : ∃ e, d.resourcesEntries[i]? = some e :=
      ⟨_, List.getElem?_eq_getElem (by omega)⟩
    exact ⟨e, he, (hget i e he).2.1 (by omega)⟩
  · obtain ⟨e, he⟩ : ∃ e, d.resourcesEntries[d.header.numRecords - 1]? = some e :=
      ⟨_, List.getElem?_eq_getElem (by omega)⟩
    refine ⟨e, he, ?_⟩
    rw [(hget _ e he).2.2 rfl, toQuint32_cast]

/-- C20, on the example: `resourceSource` has the Resource flag and one entry; the load
succeeds, `record (0)` is empty, and the resource entry has offset 1 and length 91. -/
theorem resource_database_has_no_records_witness :
    (true = true ∧
    (QPalmDBPrivate.ofFile (QFile.opened resourceSource)).2.header =
      (readHeader (QFile.opened resourceSource)).1 ∧
    0 < numRecords (QPalmDBPrivate.ofFile (QFile.opened resourceSource)).2 ∧
    (QPalmDBPrivate.ofFile (QFile.opened resourceSource)).2.recordsEntries = [] ∧
    (∀ i : Int, 0 ≤ i →
      record (QPalmDBPrivate.ofFile (QFile.opened resourceSource)).2 i =
        .ok (QPalmDBRecord.ofData [], (QPalmDBPrivate.ofFile (QFile.opened resourceSource)).2) ∧
      (QPalmDBRecord.ofData []).isEmpty = true) ∧
    (QPalmDBPrivate.ofFile (QFile.opened resourceSource)).2.resourcesEntries.length =
      (QPalmDBPrivate.ofFile (QFile.opened resourceSource)).2.header.numRecords ∧
    (∀ e ∈ (QPalmDBPrivate.ofFile (QFile.opened resourceSource)).2.resourcesEntries,
      e.offset = 1) ∧
    (∀ i : Nat,
      i + 1 < (QPalmDBPrivate.ofFile (QFile.opened resourceSource)).2.header.numRecords →
      ∃ e : PDBResourceEntry,
        (QPalmDBPrivate.ofFile (QFile.opened resourceSource)).2.resourcesEntries[i]? = some e ∧
        e.length = 0) ∧
    (∃ e : PDBResourceEntry,
      (QPalmDBPrivate.ofFile (QFile.opened resourceSource)).2.resourcesEntries[
        (QPalmDBPrivate.ofFile (QFile.opened resourceSource)).2.header.numRecords - 1]? =
        some e ∧
      (e.length : Int) = ((resourceSource.length : Int) - 1) % 2 ^ 32)) ∧
    numRecords (QPalmDBPrivate.ofFile (QFile.opened resourceSource)).2 = 1 ∧
    (QPalmDBPrivate.ofFile (QFile.opened resourceSource)).2.resourcesEntries.map
      (fun e => (e.offset, e.length)) = [(1, 91)] :=
  ⟨resource_database_has_no_records resourceSource true
    (QPalmDBPrivate.ofFile (QFile.opened resourceSource)).2 rfl (by decide) (by decide),
    by decide, by decide⟩

end QPalmDB
